import Mathlib

/-!
Verification of the bender CI executor against its natural-language
specification.  Strings from the Go source are modelled as `List Char`
(Go strings are byte slices; all inputs of interest are ASCII), fallible
code returns `Option` or `Except`, and the stateful job lifecycle is
modelled as a trace of actions driven by an environment of step
outcomes.
-/

namespace Bender

/-! ## Directive parser (meta.go)

`parseDirective` in meta.go scans its input with three anchored regexes:

  whitespace = ^[ \t\n]+
  item       = ("(?:\\.|[^\\"])*"|[^ !~=;\t\n"\\]*)
  condition  = ^item(=|!=|~=|!~=)item
  arg        = ^item

The embedding below realises the deterministic behaviour of these
regexes (Go regexp uses leftmost-first alternation; the bare-token
class excludes every character that could begin an operator, so the
greedy item match never needs to backtrack for the operator to match).
Note the bare alternative of `item` is starred, hence may match the
empty string.
-/

/-- Character class of the bare-token alternative of `item`:
`[^ !~=;\t\n"\\]`. -/
def bareOk (c : Char) : Bool :=
  !(c = ' ' || c = '!' || c = '~' || c = '=' || c = ';' ||
    c = '\t' || c = '\n' || c = '"' || c = '\\')

/-- Whitespace class `[ \t\n]` of the `whitespace` regex. -/
def isWsChar (c : Char) : Bool :=
  c = ' ' || c = '\t' || c = '\n'

/-- Scan the body of the quoted alternative `(?:\\.|[^\\"])*"` right
after the opening quote.  Returns the consumed body (escapes kept
verbatim) and the remainder after the closing quote; `none` when the
alternative cannot match (unterminated quote, or a backslash followed
by a newline, which neither `\\.` nor `[^\\"]` accepts). -/
def scanQuotedCore : List Char → Option (List Char × List Char)
  | [] => none
  | c :: rest =>
      if c = '"' then some ([], rest)
      else if c = '\\' then
        match rest with
        | [] => none
        | c2 :: rest2 =>
            if c2 = '\n' then none
            else
              match scanQuotedCore rest2 with
              | some (a, r) => some ('\\' :: c2 :: a, r)
              | none => none
      else
        match scanQuotedCore rest with
        | some (a, r) => some (c :: a, r)
        | none => none

/-- Match the `item` regex at the front of the input; returns the
matched text (for a quoted item, including both quotes) and the rest.
The quoted alternative is tried first; when it fails the starred bare
alternative applies, possibly matching the empty string (the bare
class excludes the double quote, so a failed quoted alternative always
falls back to an empty bare match). -/
def scanItem (s : List Char) : List Char × List Char :=
  if s.head? = some '"' then
    match scanQuotedCore s.tail with
    | some (a, r) => ('"' :: a ++ ['"'], r)
    | none => (s.takeWhile bareOk, s.dropWhile bareOk)
  else (s.takeWhile bareOk, s.dropWhile bareOk)

/-- Match the operator alternation `(=|!=|~=|!~=)` at the front of the
input, first alternative first. -/
def scanOp : List Char → Option (List Char × List Char)
  | [] => none
  | c1 :: r1 =>
      if c1 = '=' then some (['='], r1)
      else if c1 = '!' then
        match r1 with
        | [] => none
        | c2 :: r2 =>
            if c2 = '=' then some (['!', '='], r2)
            else if c2 = '~' then
              match r2 with
              | [] => none
              | c3 :: r3 => if c3 = '=' then some (['!', '~', '='], r3) else none
            else none
      else if c1 = '~' then
        match r1 with
        | [] => none
        | c2 :: r2 => if c2 = '=' then some (['~', '='], r2) else none
      else none

/-- Match the `condition` regex `^item(=|!=|~=|!~=)item`: a greedy item,
an operator, a second item.  Returns the raw key, the operator, the raw
value, and the rest of the input. -/
def scanCondition (s : List Char) :
    Option (List Char × List Char × List Char × List Char) :=
  let (k, r1) := scanItem s
  match scanOp r1 with
  | none => none
  | some (op, r2) =>
      let (v, r3) := scanItem r2
      some (k, op, v, r3)

/-- Decode one escape character, as in the `switch` of `unstring`. -/
def escDecode : Char → Option Char
  | '\\' => some '\\'
  | '"' => some '"'
  | 'n' => some '\n'
  | 'r' => some '\r'
  | 't' => some '\t'
  | _ => none

/-- The loop of `unstring` after the opening quote has been stripped:
process characters while at least one further character remains (the
final character — the closing quote of a well-formed token — is never
processed on its own, though it can be consumed as the second half of
an escape pair), decoding backslash escapes; an unknown escape is an
error. -/
def unstringCore : List Char → Option (List Char)
  | [] => some []
  | c :: rest =>
      match rest with
      | [] => some []
      | c2 :: rest2 =>
          if c = '\\' then
            match escDecode c2, unstringCore rest2 with
            | some d, some out => some (d :: out)
            | _, _ => none
          else
            match unstringCore (c2 :: rest2) with
            | some out => some (c :: out)
            | none => none

/-- `unstring` from meta.go: a token not starting with a double quote is
returned unchanged; otherwise the quotes are stripped and escapes
decoded. -/
def unstring (s : List Char) : Option (List Char) :=
  if s.head? = some '"' then unstringCore s.tail else some s

/-- One `key OP value` condition of a parsed directive. -/
structure DirectiveCondition where
  key : List Char
  op : List Char
  value : List Char
  deriving DecidableEq, Repr

/-- A parsed directive: positional arguments then conditions. -/
structure Directive where
  args : List (List Char)
  conditions : List DirectiveCondition
  deriving DecidableEq, Repr

/-- One iteration of the scanning loop of `parseDirective`: an empty
input returns the accumulated directive; otherwise the loop tries, in
order, whitespace, a condition, an argument — exactly as the Go code
does (the Go `unknown:` branch is unreachable because the starred bare
item always matches).  `rec` is the continuation for the next
iteration. -/
def parseStep
    (rec : List Char → List (List Char) → List DirectiveCondition →
      Option (Except (List Char) Directive))
    (t : List Char) (args : List (List Char))
    (conds : List DirectiveCondition) :
    Option (Except (List Char) Directive) :=
  match t with
  | [] => some (.ok ⟨args, conds⟩)
  | c :: rest0 =>
      if isWsChar c then
        rec ((c :: rest0).dropWhile isWsChar) args conds
      else
        match scanCondition (c :: rest0) with
        | some (k, op, v, rest) =>
            match unstring k, unstring v with
            | some key, some val =>
                rec rest args (conds ++ [⟨key, op, val⟩])
            | _, _ => some (.error "invalid escape sequence".data)
        | none =>
            let (m, rest) := scanItem (c :: rest0)
            if conds.isEmpty then
              match unstring m with
              | some a => rec rest (args ++ [a]) conds
              | none => some (.error "invalid escape sequence".data)
            else some (.error "positional argument after condition argument".data)

/-- The scanning loop of `parseDirective`, made total with a fuel
parameter: `none` means the fuel ran out before the Go loop would have
returned (the Go loop has no fuel and simply does not terminate on such
inputs). -/
def parseLoop : Nat → List Char → List (List Char) →
    List DirectiveCondition → Option (Except (List Char) Directive)
  | 0, _, _, _ => none
  | fuel + 1, t, args, conds => parseStep (parseLoop fuel) t args conds

/-- `parseDirective` run with a fuel budget proportional to the input:
sufficient for every input on which the Go loop terminates. -/
def parseDirective (src : List Char) : Option (Except (List Char) Directive) :=
  parseLoop (src.length + 1) src [] []

/-! ## A directive generator (for the round-trip property)

Tokens are either bare tokens (non-empty, over the bare character
class) or double-quoted strings whose rendering uses only the escapes
accepted by `unstring`. -/

/-- A generated token: a bare token carries its text, a quoted token its
unescaped content. -/
inductive Tok where
  | bare (s : List Char)
  | quoted (s : List Char)
  deriving DecidableEq, Repr

/-- Well-formedness of a generated token: bare tokens are non-empty and
stay inside the bare character class; quoted content is unrestricted
(every character either renders literally or through one of the five
escapes). -/
def Tok.wf : Tok → Prop
  | .bare s => s ≠ [] ∧ ∀ c ∈ s, bareOk c = true
  | .quoted _ => True

instance : DecidablePred Tok.wf := by
  intro t
  cases t with
  | bare s => exact inferInstanceAs (Decidable (_ ∧ _))
  | quoted s => exact inferInstanceAs (Decidable True)

/-- Render one content character of a quoted token, escaping exactly
`\\`, `"`, newline, carriage return and tab. -/
def escChar (c : Char) : List Char :=
  if c = '\\' then ['\\', '\\']
  else if c = '"' then ['\\', '"']
  else if c = '\n' then ['\\', 'n']
  else if c = '\r' then ['\\', 'r']
  else if c = '\t' then ['\\', 't']
  else [c]

/-- Render a token to directive text. -/
def Tok.render : Tok → List Char
  | .bare s => s
  | .quoted s => '"' :: (s.map escChar).flatten ++ ['"']

/-- The value `unstring` is expected to recover from a rendered token. -/
def Tok.value : Tok → List Char
  | .bare s => s
  | .quoted s => s

/-- A generated condition operator. -/
inductive COp where
  | eq
  | ne
  | re
  | nre
  deriving DecidableEq, Repr

/-- Operator text, as the Go alternation produces it. -/
def COp.render : COp → List Char
  | .eq => ['=']
  | .ne => ['!', '=']
  | .re => ['~', '=']
  | .nre => ['!', '~', '=']

/-- A generated condition: key token, operator, value token. -/
structure CondTok where
  key : Tok
  op : COp
  value : Tok
  deriving DecidableEq, Repr

/-- Well-formedness of a generated condition. -/
def CondTok.wf (c : CondTok) : Prop := c.key.wf ∧ c.value.wf

/-- Render a condition: key, operator and value concatenated without
separators, as the `condition` regex consumes them. -/
def CondTok.render (c : CondTok) : List Char :=
  c.key.render ++ c.op.render ++ c.value.render

/-- The parsed condition a generated condition should produce. -/
def CondTok.toCondition (c : CondTok) : DirectiveCondition :=
  ⟨c.key.value, c.op.render, c.value.value⟩

/-- Render a directive: positional-argument tokens followed by
conditions, single-space separated. -/
def renderDirective (args : List Tok) (conds : List CondTok) : List Char :=
  (List.intersperse [' '] (args.map Tok.render ++ conds.map CondTok.render)).flatten

/-- Single-space-separated concatenation of rendered pieces, the spine of
`renderDirective`. -/
def renderSep (pieces : List (List Char)) : List Char :=
  (List.intersperse [' '] pieces).flatten

/-! ## Domain matching (net.go)

`domainMatches` from net.go, verbatim over `List Char`:
trailing dots are normalised on both sides, then the three checks of
the Go function are applied in order. -/

/-- Append a trailing dot unless one is present (the normalisation
applied to both domain and pattern). -/
def ensureDot (s : List Char) : List Char :=
  if s.getLast? = some '.' then s else s ++ ['.']

/-- `domainMatches(domain, pattern)` from net.go. -/
def domainMatches (domain pattern : List Char) : Bool :=
  let p := ensureDot pattern
  let d := ensureDot domain
  d = p || '*' :: '.' :: d = p ||
    (['*', '.'].isPrefixOf p && (p.drop 1).isSuffixOf d)

/-! ## Event pipeline (server.go)

The push branch of `handleWebhook`: strip `refs/heads/`, rewrite a
merge-queue branch for the cache tag list, keep the raw branch in the
attributes. -/

/-- `strings.CutPrefix`. -/
def cutPrefix (pre s : List Char) : Option (List Char) :=
  if pre.isPrefixOf s then some (s.drop pre.length) else none

/-- The submatch of `^gh-readonly-queue/([^/]+)/` on a branch name:
after the literal prefix, the capture is the maximal non-empty run of
non-slash characters, and a further slash must follow. -/
def mergeQueueTarget (branch : List Char) : Option (List Char) :=
  match cutPrefix "gh-readonly-queue/".data branch with
  | none => none
  | some rest =>
      let tgt := rest.takeWhile (fun c => c ≠ '/')
      if tgt = [] then none
      else if rest.dropWhile (fun c => c ≠ '/') = [] then none
      else some tgt

/-- The fields of an emitted pipeline event that the claims are about. -/
structure EventM where
  branchAttr : List Char
  cache : List (List Char)
  trusted : Bool
  deriving DecidableEq, Repr

/-- The `*github.PushEvent` case of `handleWebhook` (server.go):
require a `refs/heads/` ref and a head commit, rewrite merge-queue
branches for the cache tag only. -/
def pushEventOf (ref deflt : List Char) (hasHeadCommit : Bool) :
    Option EventM :=
  match cutPrefix "refs/heads/".data ref with
  | none => none
  | some branch =>
      let cacheBranch :=
        match mergeQueueTarget branch with
        | some t => t
        | none => branch
      if hasHeadCommit then
        some ⟨branch,
          ["branch-".data ++ cacheBranch, "branch-".data ++ deflt],
          true⟩
      else none

/-- The `*github.PullRequestEvent` case of `handleWebhook` (server.go),
also produced for `bender run` in `handleCommand`: only `opened` and
`synchronize` actions emit an event. -/
def prEventOf (action : List Char) (number : Nat)
    (base deflt headOwner baseOwner : List Char) : Option EventM :=
  if action = "opened".data ∨ action = "synchronize".data then
    some ⟨base,
      ["pr-".data ++ (Nat.repr number).data,
       "branch-".data ++ base,
       "branch-".data ++ deflt],
      headOwner = baseOwner⟩
  else none

/-! ## Job identifiers (makeJobID, validJobID) -/

/-- The lowercase hex alphabet of Go's `encoding/hex`. -/
def hextable : List Char := "0123456789abcdef".data

/-- `hex.EncodeToString` over a byte list: high nibble then low nibble
of each byte. -/
def hexEncode (bs : List Nat) : List Char :=
  (bs.map (fun b => [hextable.getD (b / 16) '0', hextable.getD (b % 16) '0'])).flatten

/-- `makeJobID` applied to the six random bytes it reads. -/
def makeJobID (bs : List Nat) : List Char := hexEncode bs

/-- The job-ID validation `^[a-z0-9]+$` of server.go, as a predicate on
the whole string: non-empty and every character a lowercase letter or
digit. -/
def validJobID (s : List Char) : Bool :=
  !s.isEmpty && s.all (fun c => ('a' ≤ c && c ≤ 'z') || ('0' ≤ c && c ≤ '9'))

/-! ## Token minting (getRepoToken, job.go)

`github.InstallationPermissions` restricted to the fields getRepoToken
touches, the permission-validation loop, and the repository list. -/

/-- The permission fields of the minted installation token. -/
structure InstallationPermissions where
  actions : Option String := none
  checks : Option String := none
  contents : Option String := none
  deployments : Option String := none
  issues : Option String := none
  packages : Option String := none
  pages : Option String := none
  pullRequests : Option String := none
  repositoryProjects : Option String := none
  securityEvents : Option String := none
  statuses : Option String := none
  metadata : Option String := none
  deriving DecidableEq, Repr

/-- The permissions getRepoToken starts from: metadata read, contents
read. -/
def basePermissions : InstallationPermissions :=
  { metadata := some "read", contents := some "read" }

/-- The `switch key` of getRepoToken: set the named field, or `none`
for an unknown permission key. -/
def applyPermission (p : InstallationPermissions) (key value : String) :
    Option InstallationPermissions :=
  if key = "actions" then some { p with actions := some value }
  else if key = "checks" then some { p with checks := some value }
  else if key = "contents" then some { p with contents := some value }
  else if key = "deployments" then some { p with deployments := some value }
  else if key = "issues" then some { p with issues := some value }
  else if key = "packages" then some { p with packages := some value }
  else if key = "pages" then some { p with pages := some value }
  else if key = "pull_requests" then some { p with pullRequests := some value }
  else if key = "repository_projects" then some { p with repositoryProjects := some value }
  else if key = "security_events" then some { p with securityEvents := some value }
  else if key = "statuses" then some { p with statuses := some value }
  else none

/-- The `for key, value := range job.Permissions` loop of getRepoToken:
a value other than read/write is an error, an unknown key is an error.
The Go map iteration order is arbitrary; the environment supplies the
entries as a list. -/
def applyPermissions (p : InstallationPermissions) :
    List (String × String) → Except String InstallationPermissions
  | [] => .ok p
  | (key, value) :: rest =>
      if value ≠ "read" ∧ value ≠ "write" then
        .error "invalid permission"
      else
        match applyPermission p key value with
        | some p2 => applyPermissions p2 rest
        | none => .error "Unknown permission"

/-- The job fields the executor model depends on. -/
structure JobM where
  trusted : Bool
  permissions : List (String × String)
  permissionRepos : List String
  repoOwner : String
  repoName : String
  isPR : Bool
  deriving DecidableEq, Repr

/-- The permissions and repository list getRepoToken requests: base
permissions and the job's own repository, plus — only when trusted —
the declared permissions and the extra permission repositories. -/
def mintOptions (job : JobM) : Except String (InstallationPermissions × List String) :=
  if job.trusted then
    match applyPermissions basePermissions job.permissions with
    | .error e => .error e
    | .ok p => .ok (p, [job.repoName] ++ job.permissionRepos)
  else .ok (basePermissions, [job.repoName])

/-! ## Container mounts (runJobInner, job.go) -/

/-- One OCI mount as runJobInner builds it. -/
structure Mount where
  source : String
  destination : String
  options : List String
  deriving DecidableEq, Repr

/-- The mount list of runJobInner: home, per-run cache and artifacts;
then resolv.conf (the stub-resolver one iff the net sandbox is
configured); then the secrets directory iff the job is trusted. -/
def buildMounts (dataDir : String) (job : JobM) (jobID : String)
    (netSandbox : Bool) : List Mount :=
  [⟨dataDir ++ "/jobs/" ++ jobID ++ "/home", "/ci", ["rbind"]⟩,
   ⟨dataDir ++ "/jobs/" ++ jobID ++ "/cache", "/ci/cache", ["rbind"]⟩,
   ⟨dataDir ++ "/artifacts/" ++ jobID, "/ci/artifacts", ["rbind"]⟩] ++
  (if netSandbox then
    [⟨dataDir ++ "/resolv.conf", "/etc/resolv.conf", ["rbind", "ro"]⟩]
   else
    [⟨"/etc/resolv.conf", "/etc/resolv.conf", ["rbind", "ro"]⟩]) ++
  (if job.trusted then
    [⟨dataDir ++ "/secrets/" ++ job.repoOwner ++ "/" ++ job.repoName,
      "/ci/secrets", ["rbind"]⟩]
   else [])

/-! ## Job lifecycle trace (runJob / runJobInner, job.go)

Each fallible operation of the lifecycle either succeeds or fails, as
dictated by an environment of outcomes; the model emits the sequence of
attempted actions, with the Go `defer` statements appended in last-in
first-out order on every exit path. -/

/-- Observable actions of one job run. -/
inductive Action where
  | createLogs
  | ghClient
  | pendingPost
  | mintToken
  | imageGet
  | readImageConfig
  | mkdirArtifacts
  | mkdirJob
  | mkdirHome
  | mkdirCache
  | provisionCache
  | writeNetrc
  | writeGitconfig
  | writeJobJson
  | writeEntrypoint
  | createContainer
  | createTask
  | startTask
  | waitTask
  | commitCache
  | commentPost
  | killTask
  | deleteTask
  | deleteContainer
  | discardCache
  | deleteJobDir
  | finalPost (success : Bool)
  deriving DecidableEq, Repr

/-- Outcomes of the fallible operations of one run, in source order. -/
structure RunEnv where
  logsOk : Bool
  ghOk : Bool
  tokenApiOk : Bool
  imageOk : Bool
  configDescOk : Bool
  blobOk : Bool
  unmarshalOk : Bool
  mkArtifactsOk : Bool
  mkJobOk : Bool
  mkHomeOk : Bool
  mkCacheOk : Bool
  provisionOk : Bool
  netrcOk : Bool
  gitconfigOk : Bool
  marshalOk : Bool
  jobJsonOk : Bool
  entrypointOk : Bool
  containerOk : Bool
  taskOk : Bool
  startOk : Bool
  waitOk : Bool
  exitErr : Bool
  exitCode : Nat
  renameOk : Bool
  commentFile : Bool
  deriving DecidableEq, Repr

/-- Whether getRepoToken succeeds: the permission validation must pass
and then the token API call must succeed. -/
def mintOk (job : JobM) (env : RunEnv) : Bool :=
  (match mintOptions job with
   | .ok _ => true
   | .error _ => false) && env.tokenApiOk

/-- The deferred cleanups registered once the job directory exists. -/
def defersHome : List Action := [.deleteJobDir]

/-- The deferred cleanups once the per-run cache snapshot exists. -/
def defersProv : List Action := [.discardCache, .deleteJobDir]

/-- The deferred cleanups once the container exists. -/
def defersContainer : List Action := [.deleteContainer, .discardCache, .deleteJobDir]

/-- The deferred cleanups once the task exists. -/
def defersTask : List Action :=
  [.killTask, .deleteTask, .deleteContainer, .discardCache, .deleteJobDir]

/-- One fallible step of `runJobInner` before the wait completes: the
attempted action, whether it succeeds in the given environment, and the
cleanups already registered by `defer` at that point (run, last-in
first-out, when the step fails and the function returns). -/
structure Step where
  action : Action
  ok : RunEnv → Bool
  defers : List Action

/-- The fallible steps of `runJobInner` up to and including the task
wait, in source order (job.go): getRepoToken; image get/pull; the three
config-blob reads (collapsed — each failure returns with the same
trace); the artifacts, job and home directory creations (the job-dir
cleanup is deferred after the home directory exists); the cache
directory creation; the snapshot provision (its conditional delete is
deferred only after it succeeds); the four home-file writes (the
`json.Marshal` failure returns with the same trace as a .gitconfig
write failure, so the two share a step); container creation (its delete
deferred after success); task creation (kill and delete deferred after
success); task start; task wait. -/
def jobSteps (job : JobM) : List Step :=
  [⟨.mintToken, fun env => mintOk job env, []⟩,
   ⟨.imageGet, fun env => env.imageOk, []⟩,
   ⟨.readImageConfig,
     fun env => env.configDescOk && env.blobOk && env.unmarshalOk, []⟩,
   ⟨.mkdirArtifacts, fun env => env.mkArtifactsOk, []⟩,
   ⟨.mkdirJob, fun env => env.mkJobOk, []⟩,
   ⟨.mkdirHome, fun env => env.mkHomeOk, []⟩,
   ⟨.mkdirCache, fun env => env.mkCacheOk, defersHome⟩,
   ⟨.provisionCache, fun env => env.provisionOk, defersHome⟩,
   ⟨.writeNetrc, fun env => env.netrcOk, defersProv⟩,
   ⟨.writeGitconfig, fun env => env.gitconfigOk && env.marshalOk, defersProv⟩,
   ⟨.writeJobJson, fun env => env.jobJsonOk, defersProv⟩,
   ⟨.writeEntrypoint, fun env => env.entrypointOk, defersProv⟩,
   ⟨.createContainer, fun env => env.containerOk, defersProv⟩,
   ⟨.createTask, fun env => env.taskOk, defersContainer⟩,
   ⟨.startTask, fun env => env.startOk, defersTask⟩,
   ⟨.waitTask, fun env => env.waitOk, defersTask⟩]

/-- Run a list of fallible steps: each step's action is attempted in
order; the first failure returns the trace so far with that step's
deferred cleanups appended and reports failure; if every step succeeds
the second component is true. -/
def runSteps (env : RunEnv) : List Step → List Action × Bool
  | [] => ([], true)
  | st :: rest =>
      if st.ok env then
        let r := runSteps env rest
        (st.action :: r.1, r.2)
      else (st.action :: st.defers, false)

/-- The stage part of `jobSteps`: everything up to and including cache
provisioning. -/
def stageSteps (job : JobM) : List Step :=
  [⟨.mintToken, fun env => mintOk job env, []⟩,
   ⟨.imageGet, fun env => env.imageOk, []⟩,
   ⟨.readImageConfig,
     fun env => env.configDescOk && env.blobOk && env.unmarshalOk, []⟩,
   ⟨.mkdirArtifacts, fun env => env.mkArtifactsOk, []⟩,
   ⟨.mkdirJob, fun env => env.mkJobOk, []⟩,
   ⟨.mkdirHome, fun env => env.mkHomeOk, []⟩,
   ⟨.mkdirCache, fun env => env.mkCacheOk, defersHome⟩,
   ⟨.provisionCache, fun env => env.provisionOk, defersHome⟩]

/-- The late part of `jobSteps`: everything after cache provisioning up
to the task wait. -/
def lateSteps : List Step :=
  [⟨.writeNetrc, fun env => env.netrcOk, defersProv⟩,
   ⟨.writeGitconfig, fun env => env.gitconfigOk && env.marshalOk, defersProv⟩,
   ⟨.writeJobJson, fun env => env.jobJsonOk, defersProv⟩,
   ⟨.writeEntrypoint, fun env => env.entrypointOk, defersProv⟩,
   ⟨.createContainer, fun env => env.containerOk, defersProv⟩,
   ⟨.createTask, fun env => env.taskOk, defersContainer⟩,
   ⟨.startTask, fun env => env.startOk, defersTask⟩,
   ⟨.waitTask, fun env => env.waitOk, defersTask⟩]

/-- `runJobInner` as a trace: the fallible steps up to the wait; when
they all succeed, the commit block always runs (its trace position is
before the comment post), the comment is posted for a PR with a comment
file, and the deferred cleanups run last-in first-out — the deferred
cache delete only fires while the per-run snapshot still exists, so
after a successful commit rename it is skipped.  The run succeeds when
the task waited with no error and exit code zero. -/
def runJobInnerM (job : JobM) (env : RunEnv) : List Action × Bool :=
  let r := runSteps env (jobSteps job)
  if r.2 then
    (r.1 ++ [.commitCache] ++
      (if job.isPR && env.commentFile then [.commentPost] else []) ++
      [.killTask, .deleteTask, .deleteContainer] ++
      (if env.renameOk then [] else [.discardCache]) ++ [.deleteJobDir],
     !env.exitErr && env.exitCode = 0)
  else r

/-- `runJob` as a trace: log-file creation and client construction
abort silently on failure; the pending status is posted before the
inner run, and the final status (success or failure) after it. -/
def runJobM (job : JobM) (env : RunEnv) : List Action :=
  [Action.createLogs] ++
  (if !env.logsOk then [] else
    [Action.ghClient] ++
    (if !env.ghOk then [] else
      [Action.pendingPost] ++
      (let r := runJobInnerM job env
       r.1 ++ [Action.finalPost r.2])))

/-- `a` occurs strictly before `b` in the trace: every position holding
`a` is earlier than every position holding `b`. -/
def precedes (tr : List Action) (a b : Action) : Prop :=
  ∀ i j : Fin tr.length, tr.get i = a → tr.get j = b → (i : Nat) < (j : Nat)

instance precedesDecidable (tr : List Action) (a b : Action) :
    Decidable (precedes tr a b) :=
  inferInstanceAs (Decidable (∀ i j : Fin tr.length,
    tr.get i = a → tr.get j = b → (i : Nat) < (j : Nat)))

/-- The closed permission-key set of the spec (§6.3): exactly the keys
the `switch` of getRepoToken accepts. -/
def permKeyOk (k : String) : Bool :=
  k = "actions" || k = "checks" || k = "contents" || k = "deployments" ||
  k = "issues" || k = "packages" || k = "pages" || k = "pull_requests" ||
  k = "repository_projects" || k = "security_events" || k = "statuses"

/-- An accepted permission value: read or write. -/
def permValueOk (v : String) : Bool := v = "read" || v = "write"

/-- An accepted permission entry. -/
def permEntryOk (kv : String × String) : Bool :=
  permKeyOk kv.1 && permValueOk kv.2

/-- The run reaches the cache-provisioning step and it succeeds: token
minting, image acquisition, config read, the directory creations and
the snapshot creation all succeed. -/
def reachesStage (job : JobM) (env : RunEnv) : Bool :=
  mintOk job env && env.imageOk && env.configDescOk && env.blobOk &&
  env.unmarshalOk && env.mkArtifactsOk && env.mkJobOk && env.mkHomeOk &&
  env.mkCacheOk && env.provisionOk

/-- All steps between cache provisioning and the task wait succeed:
home-file writes, container creation, task creation, task start, wait. -/
def lateStepsOk (env : RunEnv) : Bool :=
  env.netrcOk && env.gitconfigOk && env.marshalOk && env.jobJsonOk &&
  env.entrypointOk && env.containerOk && env.taskOk && env.startOk &&
  env.waitOk

/-! ## The nftables ruleset (setupNftables, net.go)

A structured transcription of the literal nft script piped to
`nft -f -`, together with first-match semantics for the gated chain. -/

/-- The match part of one rule of the gated chain. -/
inductive MatchCond where
  | daddrInSet (setName : String)
  | protoTcp
  | always
  deriving DecidableEq, Repr

/-- The reject variants used by the ruleset. -/
inductive RejectWith where
  | tcpReset
  | icmpHostProhibited
  deriving DecidableEq, Repr

/-- The action part of one rule of the gated chain. -/
inductive RuleAction where
  | accept
  | reject (r : RejectWith)
  deriving DecidableEq, Repr

/-- One rule of the gated chain. -/
structure NftRule where
  cond : MatchCond
  action : RuleAction
  deriving DecidableEq, Repr

/-- The parts of the installed ruleset the claims are about: the
initial contents of the `allow` set, the cgroup selector of the output
hook (`socket cgroupv2 level <n> "<name>" goto bender-output`), and the
rules of the `bender-output` chain. -/
structure NftRuleset where
  allowSetInit : List (Nat × Nat × Nat × Nat)
  outputCgroupLevel : Nat
  outputCgroupName : String
  gatedChain : List NftRule
  deriving DecidableEq, Repr

/-- Transcription of the script in `setupNftables` (net.go): the set
`allow` holds `127.0.0.93`; the output hook matches
`socket cgroupv2 level 1 "bender"`; the chain `bender-output` is
`ip daddr @allow accept`, `ip protocol tcp reject with tcp reset`,
`reject with icmp type host-prohibited`. -/
def benderRuleset : NftRuleset where
  allowSetInit := [(127, 0, 0, 93)]
  outputCgroupLevel := 1
  outputCgroupName := "bender"
  gatedChain :=
    [⟨.daddrInSet "allow", .accept⟩,
     ⟨.protoTcp, .reject .tcpReset⟩,
     ⟨.always, .reject .icmpHostProhibited⟩]

/-- The packet attributes the gated chain inspects. -/
structure Packet where
  daddr : Nat × Nat × Nat × Nat
  isTcp : Bool
  deriving DecidableEq, Repr

/-- Whether a packet matches one rule condition, with `allowSet` as the
current contents of the `allow` set. -/
def condMatches (allowSet : List (Nat × Nat × Nat × Nat)) (p : Packet) :
    MatchCond → Bool
  | .daddrInSet _ => allowSet.contains p.daddr
  | .protoTcp => p.isTcp
  | .always => true

/-- First-match evaluation of a chain: the action of the first rule the
packet matches, `none` when the packet falls through to the chain
policy. -/
def evalChain (allowSet : List (Nat × Nat × Nat × Nat)) (p : Packet) :
    List NftRule → Option RuleAction
  | [] => none
  | r :: rs =>
      if condMatches allowSet p r.cond then some r.action
      else evalChain allowSet p rs

/-! ## Concrete fixtures for counterexamples and witnesses -/

/-- An environment in which every fallible operation succeeds and the
task exits 0. -/
def envAllOk : RunEnv where
  logsOk := true
  ghOk := true
  tokenApiOk := true
  imageOk := true
  configDescOk := true
  blobOk := true
  unmarshalOk := true
  mkArtifactsOk := true
  mkJobOk := true
  mkHomeOk := true
  mkCacheOk := true
  provisionOk := true
  netrcOk := true
  gitconfigOk := true
  marshalOk := true
  jobJsonOk := true
  entrypointOk := true
  containerOk := true
  taskOk := true
  startOk := true
  waitOk := true
  exitErr := false
  exitCode := 0
  renameOk := true
  commentFile := true

/-- A trusted job without declared permissions. -/
def jobPlain : JobM where
  trusted := true
  permissions := []
  permissionRepos := []
  repoOwner := "org"
  repoName := "repo"
  isPR := true

/-- An untrusted job whose metadata declares a permission with a key
outside the accepted set. -/
def jobBadPermUntrusted : JobM where
  trusted := false
  permissions := [("bogus", "read")]
  permissionRepos := ["other"]
  repoOwner := "org"
  repoName := "repo"
  isPR := false

/-- A trusted job whose metadata declares a permission with a key
outside the accepted set. -/
def jobBadPermTrusted : JobM where
  trusted := true
  permissions := [("bogus", "read")]
  permissionRepos := []
  repoOwner := "org"
  repoName := "repo"
  isPR := false

/-! ## Helper lemmas -/

theorem takeWhile_append_of_all {α : Type} {p : α → Bool} (l1 l2 : List α)
    (h : ∀ c ∈ l1, p c = true) :
    (l1 ++ l2).takeWhile p = l1 ++ l2.takeWhile p := by
  induction l1 with
  | nil => simp
  | cons a l ih =>
      have ha : p a = true := h a (by simp)
      simp [List.takeWhile_cons, ha, ih (fun c hc => h c (by simp [hc]))]

theorem dropWhile_append_of_all {α : Type} {p : α → Bool} (l1 l2 : List α)
    (h : ∀ c ∈ l1, p c = true) :
    (l1 ++ l2).dropWhile p = l2.dropWhile p := by
  induction l1 with
  | nil => simp
  | cons a l ih =>
      have ha : p a = true := h a (by simp)
      simp [List.dropWhile_cons, ha, ih (fun c hc => h c (by simp [hc]))]

theorem dropWhile_head_false {α : Type} {p : α → Bool} :
    ∀ {l : List α} {c : α} {cs : List α}, l.dropWhile p = c :: cs → p c = false := by
  intro l
  induction l with
  | nil => intro c cs h; simp [List.dropWhile] at h
  | cons a l ih =>
      intro c cs h
      rw [List.dropWhile_cons] at h
      by_cases ha : p a = true
      · rw [if_pos ha] at h; exact ih h
      · rw [if_neg ha] at h
        cases h
        exact Bool.eq_false_iff.mpr ha

theorem dropWhile_of_head_false {α : Type} {p : α → Bool} {l : List α}
    (h : ∀ c, l.head? = some c → p c = false) : l.dropWhile p = l := by
  cases l with
  | nil => rfl
  | cons a l => rw [List.dropWhile_cons, if_neg (by simp [h a rfl])]

/-! ## C10: job identifiers -/

theorem hexEncode_cons (b : Nat) (bs : List Nat) :
    hexEncode (b :: bs) =
      hextable.getD (b / 16) '0' :: hextable.getD (b % 16) '0' :: hexEncode bs := rfl

theorem hextable_len : hextable.length = 16 := rfl

theorem hextable_chars_valid :
    ∀ x ∈ hextable, (('a' ≤ x && x ≤ 'z') || ('0' ≤ x && x ≤ '9')) = true := by decide

theorem hexEncode_length_mem (bs : List Nat) (hb : ∀ b ∈ bs, b < 256) :
    (hexEncode bs).length = 2 * bs.length ∧ ∀ c ∈ hexEncode bs, c ∈ hextable := by
  induction bs with
  | nil => simp [hexEncode]
  | cons b bs ih =>
      have hrec := ih fun x hx => hb x (by simp [hx])
      have hdiv : b / 16 < hextable.length := by
        rw [hextable_len]
        have := hb b (by simp)
        omega
      have hmod : b % 16 < hextable.length := by rw [hextable_len]; omega
      rw [hexEncode_cons]
      constructor
      · simp only [List.length_cons, hrec.1]; omega
      · intro c hc
        rcases List.mem_cons.mp hc with h | hc2
        · rw [h, List.getD_eq_getElem _ _ hdiv]; exact List.getElem_mem hdiv
        · rcases List.mem_cons.mp hc2 with h | h
          · rw [h, List.getD_eq_getElem _ _ hmod]; exact List.getElem_mem hmod
          · exact hrec.2 c h

/-- C10: every identifier `makeJobID` produces from its six random
bytes is a 12-character lowercase-hex string, and therefore passes the
`^[a-z0-9]+$` validation `validJobID` of the HTTP surface. -/
theorem makeJobID_always_valid (bs : List Nat) (h6 : bs.length = 6)
    (hb : ∀ b ∈ bs, b < 256) :
    (makeJobID bs).length = 12 ∧ (∀ c ∈ makeJobID bs, c ∈ hextable) ∧
    validJobID (makeJobID bs) = true := by
  obtain ⟨hlen, hmem⟩ := hexEncode_length_mem bs hb
  have hlen12 : (makeJobID bs).length = 12 := by
    simp only [makeJobID]; omega
  refine ⟨hlen12, hmem, ?_⟩
  have hne : makeJobID bs ≠ [] := by
    intro h; rw [h] at hlen12; simp at hlen12
  simp only [validJobID, Bool.and_eq_true, Bool.not_eq_true', List.all_eq_true]
  refine ⟨by simp [List.isEmpty_iff, hne], ?_⟩
  exact fun c hc => hextable_chars_valid c (hmem c hc)

/-- Witness for C10 at a concrete byte vector. -/
theorem makeJobID_always_valid_witness :
    ([0, 255, 171, 16, 9, 100].length = 6 ∧ (∀ b ∈ [0, 255, 171, 16, 9, 100], b < 256)) ∧
    validJobID (makeJobID [0, 255, 171, 16, 9, 100]) = true :=
  ⟨⟨by decide, by decide⟩,
   (makeJobID_always_valid [0, 255, 171, 16, 9, 100] (by decide) (by decide)).2.2⟩

/-! ## C4: the nftables ruleset -/

/-- C4 counterexample: the output hook of the installed ruleset selects
the cgroup named `bender` (the containerd namespace the jobs run
under), not a cgroup named `jobs` as the claim states. -/
theorem nft_hook_cgroup_not_jobs :
    benderRuleset.outputCgroupName = "bender" ∧
    benderRuleset.outputCgroupName ≠ "jobs" := by
  constructor <;> decide

/-- C4 amended: the allow-set is initialised to exactly the stub
resolver's address 127.0.0.93; the output hook subjects packets whose
socket cgroup (at level 1) is `bender` to the gated chain; and the
gated chain accepts destinations in the allow-set, rejects other TCP
packets with a TCP reset, and rejects everything else with ICMP
host-prohibited. -/
theorem nft_ruleset_semantics :
    benderRuleset.allowSetInit = [(127, 0, 0, 93)] ∧
    benderRuleset.outputCgroupLevel = 1 ∧
    benderRuleset.outputCgroupName = "bender" ∧
    ∀ allowSet p, evalChain allowSet p benderRuleset.gatedChain =
      some (if p.daddr ∈ allowSet then RuleAction.accept
            else if p.isTcp then RuleAction.reject .tcpReset
            else RuleAction.reject .icmpHostProhibited) := by
  refine ⟨rfl, rfl, rfl, fun allowSet p => ?_⟩
  by_cases h1 : p.daddr ∈ allowSet <;>
    by_cases h2 : p.isTcp <;>
      simp [benderRuleset, evalChain, condMatches, h1, h2]

/-! ## C9: non-termination of parseDirective -/

theorem parseLoop_semicolon_stuck :
    ∀ fuel args, parseLoop fuel [';'] args [] = none := by
  intro fuel
  induction fuel with
  | zero => intro args; rfl
  | succ f ih =>
      intro args
      have hstep : parseLoop (f + 1) [';'] args [] =
          parseLoop f [';'] (args ++ [[]]) [] := rfl
      rw [hstep]
      exact ih (args ++ [[]])

/-! ## C5: domain pattern matching -/

theorem ensureDot_exact_iff (d : List Char) :
    ensureDot d = "example.com.".data ↔
      d = "example.com".data ∨ d = "example.com.".data := by
  unfold ensureDot
  constructor
  · intro h
    split at h
    · right; exact h
    · left
      have hx : "example.com.".data = "example.com".data ++ ['.'] := by decide
      rw [hx] at h
      exact List.append_cancel_right h
  · intro h
    rcases h with h | h <;> subst h <;> decide

theorem domainMatches_exact_iff (d : List Char) :
    domainMatches d "example.com".data = true ↔
      d = "example.com".data ∨ d = "example.com.".data := by
  rw [← ensureDot_exact_iff]
  unfold domainMatches
  have hp : ensureDot "example.com".data = "example.com.".data := by decide
  rw [hp]
  simp only [Bool.or_eq_true, Bool.and_eq_true, decide_eq_true_eq]
  constructor
  · rintro ((h | h) | ⟨h1, h2⟩)
    · exact h
    · exfalso; simp at h
    · exact absurd h1 (by decide)
  · intro h
    left; left; exact h

theorem domainMatches_wildcard_label (x : List Char) (hne : x ≠ [])
    (hlabel : ∀ c ∈ x, c ≠ '.') :
    domainMatches (x ++ ".example.com".data) "*.example.com".data = true := by
  unfold domainMatches
  have hp : ensureDot "*.example.com".data = "*.example.com.".data := by decide
  have hd : ensureDot (x ++ ".example.com".data) = x ++ ".example.com.".data := by
    unfold ensureDot
    have hm : ".example.com".data.getLast? = some 'm' := by decide
    have hlast : (x ++ ".example.com".data).getLast? = some 'm' := by
      rw [List.getLast?_append, hm]; rfl
    rw [if_neg (by rw [hlast]; decide)]
    rw [List.append_assoc]
    have hx : ".example.com".data ++ ['.'] = ".example.com.".data := by decide
    rw [hx]
  rw [hp, hd]
  have hpre : ['*', '.'].isPrefixOf "*.example.com.".data = true := by decide
  have hdrop : List.drop 1 "*.example.com.".data = ".example.com.".data := by decide
  have hsuf : ".example.com.".data.isSuffixOf (x ++ ".example.com.".data) = true := by
    rw [List.isSuffixOf_iff_suffix]
    exact List.suffix_append x _
  simp [hdrop, hpre, hsuf]

/-- C5: after trailing-dot normalisation, the pattern `example.com`
matches exactly the host `example.com` and no other domain; the
pattern `*.example.com` matches `example.com` itself and `x.example.com`
for an arbitrary single label `x`; and neither pattern matches
`evilexample.com` or `example.com.evil`. -/
theorem domainMatches_patterns :
    (∀ d, domainMatches d "example.com".data = true ↔
        d = "example.com".data ∨ d = "example.com.".data) ∧
    domainMatches "example.com".data "*.example.com".data = true ∧
    (∀ x, x ≠ [] → (∀ c ∈ x, c ≠ '.') →
        domainMatches (x ++ ".example.com".data) "*.example.com".data = true) ∧
    domainMatches "evilexample.com".data "example.com".data = false ∧
    domainMatches "evilexample.com".data "*.example.com".data = false ∧
    domainMatches "example.com.evil".data "example.com".data = false ∧
    domainMatches "example.com.evil".data "*.example.com".data = false :=
  ⟨domainMatches_exact_iff, by decide, domainMatches_wildcard_label,
   by decide, by decide, by decide, by decide⟩

/-- Witness for C5 at the concrete label `www`. -/
theorem domainMatches_patterns_witness :
    ("www".data ≠ [] ∧ (∀ c ∈ "www".data, c ≠ '.')) ∧
    domainMatches ("www".data ++ ".example.com".data) "*.example.com".data = true :=
  ⟨⟨by decide, by decide⟩,
   domainMatches_patterns.2.2.1 "www".data (by decide) (by decide)⟩

/-- C9: `parseDirective` does not terminate on the input `;` — the bare
item of the grammar matches the empty string there, so the Go loop
consumes nothing and appends empty arguments forever; the model runs
out of any finite fuel.  Such inputs are reachable from any `##` line
and from any `bender <command>` PR comment line. -/
theorem parseDirective_semicolon_diverges :
    (∀ fuel args, parseLoop fuel [';'] args [] = none) ∧
    parseDirective ";".data = none := by
  refine ⟨parseLoop_semicolon_stuck, ?_⟩
  have : ";".data = [';'] := rfl
  rw [parseDirective, this]
  exact parseLoop_semicolon_stuck _ []

/-! ## C6: cache tag lists of the event pipeline -/


theorem cutPrefix_append (pre rest : List Char) :
    cutPrefix pre (pre ++ rest) = some rest := by
  unfold cutPrefix
  rw [if_pos (List.isPrefixOf_iff_prefix.mpr (List.prefix_append pre rest))]
  rw [List.drop_left]

theorem mergeQueueTarget_of_decomp (t rest : List Char) (ht : t ≠ [])
    (hs : ∀ c ∈ t, c ≠ '/') :
    mergeQueueTarget ("gh-readonly-queue/".data ++ (t ++ '/' :: rest)) = some t := by
  unfold mergeQueueTarget
  rw [cutPrefix_append]
  have hall : ∀ c ∈ t, (fun c => decide (c ≠ '/')) c = true := by
    intro c hc; simp [hs c hc]
  have htake : (t ++ '/' :: rest).takeWhile (fun c => c ≠ '/') = t := by
    rw [takeWhile_append_of_all t ('/' :: rest) hall]
    simp [List.takeWhile_cons]
  have hdrop : (t ++ '/' :: rest).dropWhile (fun c => c ≠ '/') = '/' :: rest := by
    rw [dropWhile_append_of_all t ('/' :: rest) hall]
    simp [List.dropWhile_cons]
  simp only [htake, hdrop]
  rw [if_neg ht, if_neg (by simp)]

theorem mergeQueueTarget_some {br t : List Char}
    (h : mergeQueueTarget br = some t) :
    ∃ rest, br = "gh-readonly-queue/".data ++ t ++ '/' :: rest ∧ t ≠ [] ∧
      ∀ c ∈ t, c ≠ '/' := by
  unfold mergeQueueTarget at h
  rcases hcut : cutPrefix "gh-readonly-queue/".data br with _ | rest0
  · rw [hcut] at h; exact absurd h (by simp)
  · rw [hcut] at h
    have hbr : br = "gh-readonly-queue/".data ++ rest0 := by
      unfold cutPrefix at hcut
      split at hcut
      · rename_i hpre
        obtain ⟨u, hu⟩ := List.isPrefixOf_iff_prefix.mp hpre
        injection hcut with hcut2
        rw [← hu, List.drop_left] at hcut2
        rw [← hu, hcut2]
      · exact absurd hcut (by simp)
    simp only at h
    split at h
    · exact absurd h (by simp)
    · split at h
      · exact absurd h (by simp)
      · rename_i hne hdw
        injection h with ht
        subst ht
        rcases hd : rest0.dropWhile (fun c => c ≠ '/') with _ | ⟨c, cs⟩
        · exact absurd hd hdw
        · have hc : c = '/' := by
            have := dropWhile_head_false hd
            simpa using this
          refine ⟨cs, ?_, hne, ?_⟩
          · have hsplit : rest0 =
                List.takeWhile (fun c => c ≠ '/') rest0 ++ '/' :: cs := by
              conv_lhs => rw [← List.takeWhile_append_dropWhile (fun c => c ≠ '/') rest0]
              rw [hd, hc]
            have h2 : "gh-readonly-queue/".data ++ rest0 =
                "gh-readonly-queue/".data ++
                  (List.takeWhile (fun c => c ≠ '/') rest0 ++ '/' :: cs) :=
              congrArg (fun l => "gh-readonly-queue/".data ++ l) hsplit
            exact hbr.trans (h2.trans (List.append_assoc _ _ _).symm)
          · intro c2 hc2
            have := List.mem_takeWhile_imp hc2
            simpa using this

theorem pushEvent_mq (t rest deflt : List Char) (hc : Bool) (ev : EventM)
    (ht : t ≠ []) (hs : ∀ c ∈ t, c ≠ '/')
    (h : pushEventOf ("refs/heads/".data ++
      ("gh-readonly-queue/".data ++ (t ++ '/' :: rest))) deflt hc = some ev) :
    ev.branchAttr = "gh-readonly-queue/".data ++ (t ++ '/' :: rest) ∧
    ev.cache = ["branch-".data ++ t, "branch-".data ++ deflt] := by
  unfold pushEventOf at h
  rw [cutPrefix_append] at h
  simp only at h
  rw [mergeQueueTarget_of_decomp t rest ht hs] at h
  simp only at h
  split at h
  · injection h with h; subst h; exact ⟨rfl, rfl⟩
  · exact absurd h (by simp)

theorem pushEvent_plain (br deflt : List Char) (hc : Bool) (ev : EventM)
    (hno : ∀ t rest, t ≠ [] → (∀ c ∈ t, c ≠ '/') →
      br ≠ "gh-readonly-queue/".data ++ (t ++ '/' :: rest))
    (h : pushEventOf ("refs/heads/".data ++ br) deflt hc = some ev) :
    ev.branchAttr = br ∧
    ev.cache = ["branch-".data ++ br, "branch-".data ++ deflt] := by
  unfold pushEventOf at h
  rw [cutPrefix_append] at h
  simp only at h
  have hmq : mergeQueueTarget br = none := by
    rcases hm : mergeQueueTarget br with _ | t
    · rfl
    · obtain ⟨rest, hbr, ht2, hs2⟩ := mergeQueueTarget_some hm
      rw [List.append_assoc] at hbr
      exact absurd hbr (hno t rest ht2 hs2)
  rw [hmq] at h
  simp only at h
  split at h
  · injection h with h; subst h; exact ⟨rfl, rfl⟩
  · exact absurd h (by simp)

theorem prEvent_tags (action : List Char) (n : Nat)
    (base deflt ho bo : List Char) (ev : EventM)
    (h : prEventOf action n base deflt ho bo = some ev) :
    ev.branchAttr = base ∧
    ev.cache = ["pr-".data ++ (Nat.repr n).data, "branch-".data ++ base,
      "branch-".data ++ deflt] := by
  unfold prEventOf at h
  split at h
  · injection h with h; subst h; exact ⟨rfl, rfl⟩
  · exact absurd h (by simp)


/-- C6: a push on `refs/heads/<br>` yields cache tags
`[branch-<br2>, branch-<default>]` where `<br2>` is the merge-queue
target when `<br>` has the form `gh-readonly-queue/<target>/...` and
`<br>` itself otherwise, while the `branch` attribute keeps the
unrewritten `<br>`; a pull-request event numbered N with base `<base>`
yields `[pr-<N>, branch-<base>, branch-<default>]`. -/
theorem event_cache_tags :
    (∀ t rest deflt hc ev, t ≠ [] → (∀ c ∈ t, c ≠ '/') →
       pushEventOf ("refs/heads/".data ++
         ("gh-readonly-queue/".data ++ (t ++ '/' :: rest))) deflt hc = some ev →
       ev.branchAttr = "gh-readonly-queue/".data ++ (t ++ '/' :: rest) ∧
       ev.cache = ["branch-".data ++ t, "branch-".data ++ deflt]) ∧
    (∀ br deflt hc ev, (∀ t rest, t ≠ [] → (∀ c ∈ t, c ≠ '/') →
         br ≠ "gh-readonly-queue/".data ++ (t ++ '/' :: rest)) →
       pushEventOf ("refs/heads/".data ++ br) deflt hc = some ev →
       ev.branchAttr = br ∧
       ev.cache = ["branch-".data ++ br, "branch-".data ++ deflt]) ∧
    (∀ action n base deflt ho bo ev,
       prEventOf action n base deflt ho bo = some ev →
       ev.branchAttr = base ∧
       ev.cache = ["pr-".data ++ (Nat.repr n).data, "branch-".data ++ base,
         "branch-".data ++ deflt]) :=
  ⟨fun t rest deflt hc ev ht hs h => pushEvent_mq t rest deflt hc ev ht hs h,
   fun br deflt hc ev hno h => pushEvent_plain br deflt hc ev hno h,
   fun action n base deflt ho bo ev h => prEvent_tags action n base deflt ho bo ev h⟩

/-- Witness for C6 on the spec's merge-queue scenario. -/
theorem event_cache_tags_witness :
    ("main".data ≠ [] ∧ (∀ c ∈ "main".data, c ≠ '/') ∧
     pushEventOf ("refs/heads/".data ++
         ("gh-readonly-queue/".data ++ ("main".data ++ '/' :: "abcd".data)))
       "dflt".data true =
       some ⟨"gh-readonly-queue/main/abcd".data,
         ["branch-main".data, "branch-dflt".data], true⟩) ∧
    ((⟨"gh-readonly-queue/main/abcd".data,
        ["branch-main".data, "branch-dflt".data], true⟩ : EventM).branchAttr =
       "gh-readonly-queue/".data ++ ("main".data ++ '/' :: "abcd".data) ∧
     (⟨"gh-readonly-queue/main/abcd".data,
        ["branch-main".data, "branch-dflt".data], true⟩ : EventM).cache =
       ["branch-".data ++ "main".data, "branch-".data ++ "dflt".data]) :=
  ⟨⟨by decide, by decide, by decide⟩,
   event_cache_tags.1 "main".data "abcd".data "dflt".data true _
     (by decide) (by decide) (by decide)⟩

/-! ## C2 and C3: permission validation and trusted gating -/


theorem applyPermission_some_key {p : InstallationPermissions} {k v : String}
    {q : InstallationPermissions} (h : applyPermission p k v = some q) :
    permKeyOk k = true := by
  by_cases h1 : k = "actions"
  · subst h1; decide
  by_cases h2 : k = "checks"
  · subst h2; decide
  by_cases h3 : k = "contents"
  · subst h3; decide
  by_cases h4 : k = "deployments"
  · subst h4; decide
  by_cases h5 : k = "issues"
  · subst h5; decide
  by_cases h6 : k = "packages"
  · subst h6; decide
  by_cases h7 : k = "pages"
  · subst h7; decide
  by_cases h8 : k = "pull_requests"
  · subst h8; decide
  by_cases h9 : k = "repository_projects"
  · subst h9; decide
  by_cases h10 : k = "security_events"
  · subst h10; decide
  by_cases h11 : k = "statuses"
  · subst h11; decide
  unfold applyPermission at h
  rw [if_neg h1, if_neg h2, if_neg h3, if_neg h4, if_neg h5, if_neg h6, if_neg h7,
      if_neg h8, if_neg h9, if_neg h10, if_neg h11] at h
  cases h

theorem applyPermissions_ok_all {l : List (String × String)}
    {p q : InstallationPermissions} (h : applyPermissions p l = .ok q) :
    ∀ kv ∈ l, permEntryOk kv = true := by
  induction l generalizing p with
  | nil => simp
  | cons kv rest ih =>
      intro kv2 hm
      unfold applyPermissions at h
      by_cases hv : kv.2 ≠ "read" ∧ kv.2 ≠ "write"
      · rw [if_pos hv] at h; exact Except.noConfusion h
      · rw [if_neg hv] at h
        rcases happ : applyPermission p kv.1 kv.2 with _ | p2
        · rw [happ] at h; exact Except.noConfusion h
        rw [happ] at h
        rcases List.mem_cons.mp hm with rfl | hm2
        · have hkey := applyPermission_some_key happ
          have hval : permValueOk kv2.2 = true := by
            rcases not_and_or.mp hv with hr | hw
            · simp [permValueOk, not_not.mp hr]
            · simp [permValueOk, not_not.mp hw]
          simp [permEntryOk, hkey, hval]
        · exact ih h kv2 hm2

theorem mintOptions_error_of_bad (job : JobM) (ht : job.trusted = true)
    (hbad : ∃ kv ∈ job.permissions, permEntryOk kv = false) :
    ∃ e, mintOptions job = .error e := by
  unfold mintOptions
  rw [ht]
  simp only [if_true]
  rcases h : applyPermissions basePermissions job.permissions with e | p
  · exact ⟨e, rfl⟩
  · obtain ⟨kv, hm, hf⟩ := hbad
    have := applyPermissions_ok_all h kv hm
    rw [hf] at this
    cases this

theorem createContainer_not_in_trace_of_mint_fail (job : JobM) (env : RunEnv)
    (h : mintOk job env = false) :
    Action.createContainer ∉ runJobM job env ∧ (runJobInnerM job env).2 = false := by
  have hrs : runSteps env (jobSteps job) = ([Action.mintToken], false) := by
    simp [jobSteps, runSteps, h]
  have hinner : runJobInnerM job env = ([Action.mintToken], false) := by
    simp [runJobInnerM, hrs]
  constructor
  · unfold runJobM
    rw [hinner]
    split_ifs <;> simp
  · rw [hinner]

/-- C2 counterexample: an untrusted job whose metadata declares the
unknown permission key `bogus` does not fail — the validation loop of
getRepoToken only runs for trusted jobs, so minting succeeds with the
base permissions and the container is created. -/
theorem untrusted_bad_permission_still_mints :
    mintOptions jobBadPermUntrusted = .ok (basePermissions, ["repo"]) ∧
    Action.createContainer ∈ runJobM jobBadPermUntrusted envAllOk := by
  constructor
  · rfl
  · decide

/-- C2 amended: for every trusted job whose metadata declares a
permission entry with a key outside the accepted set or a value outside
read/write, token minting returns an error and no container is ever
created; the run fails. -/
theorem trusted_bad_permission_fails (job : JobM) (env : RunEnv)
    (ht : job.trusted = true)
    (hbad : ∃ kv ∈ job.permissions, permEntryOk kv = false) :
    (∃ e, mintOptions job = .error e) ∧
    Action.createContainer ∉ runJobM job env ∧
    (runJobInnerM job env).2 = false := by
  have herr := mintOptions_error_of_bad job ht hbad
  have hmint : mintOk job env = false := by
    obtain ⟨e, he⟩ := herr
    simp [mintOk, he]
  obtain ⟨hc, hf⟩ := createContainer_not_in_trace_of_mint_fail job env hmint
  exact ⟨herr, hc, hf⟩

theorem trusted_bad_permission_fails_witness :
    (jobBadPermTrusted.trusted = true ∧
     ∃ kv ∈ jobBadPermTrusted.permissions, permEntryOk kv = false) ∧
    ((∃ e, mintOptions jobBadPermTrusted = .error e) ∧
     Action.createContainer ∉ runJobM jobBadPermTrusted envAllOk ∧
     (runJobInnerM jobBadPermTrusted envAllOk).2 = false) :=
  ⟨⟨by decide, by decide⟩,
   trusted_bad_permission_fails jobBadPermTrusted envAllOk (by decide) (by decide)⟩

/-- C3: a job with trusted=false never gets the secrets mount (no
mount with destination /ci/secrets, and in particular not the secrets
mount itself), and its token is minted with exactly the base
permissions (metadata:read, contents:read) for its own repository —
declared permissions and permission_repos are never applied. -/
theorem untrusted_gating (job : JobM) (dataDir jobID : String) (ns : Bool)
    (h : job.trusted = false) :
    (∀ m ∈ buildMounts dataDir job jobID ns, m.destination ≠ "/ci/secrets") ∧
    Mount.mk (dataDir ++ "/secrets/" ++ job.repoOwner ++ "/" ++ job.repoName)
        "/ci/secrets" ["rbind"] ∉ buildMounts dataDir job jobID ns ∧
    mintOptions job = .ok (basePermissions, [job.repoName]) := by
  refine ⟨?_, ?_, ?_⟩
  · intro m hm
    simp only [buildMounts, h, if_false, List.append_nil] at hm
    by_cases hns : ns <;> simp [hns] at hm <;>
      rcases hm with hm | hm | hm | hm <;> subst hm <;> simp
  · intro hmem
    simp only [buildMounts, h, if_false, List.append_nil] at hmem
    by_cases hns : ns <;> simp [hns, Mount.mk.injEq] at hmem
  · simp [mintOptions, h]

/-- Witness for C3 at a concrete untrusted job. -/
theorem untrusted_gating_witness :
    jobBadPermUntrusted.trusted = false ∧
    (∀ m ∈ buildMounts "/data" jobBadPermUntrusted "abc123" true,
      m.destination ≠ "/ci/secrets") ∧
    mintOptions jobBadPermUntrusted = .ok (basePermissions, ["repo"]) :=
  ⟨by decide,
   (untrusted_gating jobBadPermUntrusted "/data" "abc123" true (by decide)).1,
   (untrusted_gating jobBadPermUntrusted "/data" "abc123" true (by decide)).2.2⟩

/-! ## C1 and C7: the job lifecycle trace -/

theorem runSteps_not_mem {env : RunEnv} {x : Action} :
    ∀ {steps : List Step}, (∀ st ∈ steps, st.action ≠ x ∧ x ∉ st.defers) →
    x ∉ (runSteps env steps).1 := by
  intro steps
  induction steps with
  | nil => intro _; simp [runSteps]
  | cons st rest ih =>
      intro h
      obtain ⟨ha, hd⟩ := h st (by simp)
      have hrest := ih fun s hs => h s (by simp [hs])
      simp only [runSteps]
      split
      · intro hx
        rcases List.mem_cons.mp hx with h1 | h2
        · exact ha h1.symm
        · exact hrest h2
      · intro hx
        rcases List.mem_cons.mp hx with h1 | h2
        · exact ha h1.symm
        · exact hd h2

theorem runSteps_all_ok {env : RunEnv} :
    ∀ {steps : List Step}, (∀ st ∈ steps, st.ok env = true) →
    runSteps env steps = (steps.map Step.action, true) := by
  intro steps
  induction steps with
  | nil => intro _; rfl
  | cons st rest ih =>
      intro h
      simp only [runSteps, h st (by simp), if_true, ih fun s hs => h s (by simp [hs])]
      rfl

theorem runSteps_append (env : RunEnv) (s1 s2 : List Step)
    (h : ∀ st ∈ s1, st.ok env = true) :
    runSteps env (s1 ++ s2) =
      (s1.map Step.action ++ (runSteps env s2).1, (runSteps env s2).2) := by
  induction s1 with
  | nil => simp
  | cons st rest ih =>
      simp only [List.cons_append, runSteps, h st (by simp), if_true, List.append_eq,
        ih fun s hs => h s (by simp [hs]), List.map_cons]

theorem runSteps_fail_mem {env : RunEnv} :
    ∀ {steps : List Step}, (∀ st ∈ steps, Action.discardCache ∈ st.defers) →
    (∃ st ∈ steps, st.ok env = false) →
    Action.discardCache ∈ (runSteps env steps).1 ∧
      (runSteps env steps).2 = false := by
  intro steps
  induction steps with
  | nil => intro _ h; simp at h
  | cons st rest ih =>
      intro hd hex
      rcases hok : st.ok env with _ | _
      · simp only [runSteps, hok]
        simp [hd st (by simp)]
      · obtain ⟨st2, hst2, hfail⟩ := hex
        rcases List.mem_cons.mp hst2 with rfl | hmem
        · rw [hok] at hfail; cases hfail
        · have := ih (fun s hs => hd s (by simp [hs])) ⟨st2, hmem, hfail⟩
          simp only [runSteps, hok, if_true]
          simp [this.1, this.2]

theorem precedes_of_not_mem_right {tr : List Action} {a b : Action}
    (h : b ∉ tr) : precedes tr a b := by
  intro i j hi hj
  have : b ∈ tr := by rw [← hj]; exact tr.get_mem j.1 j.2
  exact absurd this h

theorem precedes_of_not_mem_left {tr : List Action} {a b : Action}
    (h : a ∉ tr) : precedes tr a b := by
  intro i j hi hj
  have : a ∈ tr := by rw [← hi]; exact tr.get_mem i.1 i.2
  exact absurd this h

theorem precedes_cons_of {c : Action} {l : List Action} {a b : Action}
    (hbc : b ≠ c) (h : precedes l a b) : precedes (c :: l) a b := by
  rintro ⟨iv, hiv⟩ ⟨jv, hjv⟩ hi hj
  cases jv with
  | zero => exact absurd hj.symm hbc
  | succ jv =>
      cases iv with
      | zero => simp
      | succ iv =>
          have hlt := h ⟨iv, by simpa using hiv⟩ ⟨jv, by simpa using hjv⟩ hi hj
          simpa using Nat.succ_lt_succ hlt

theorem precedes_append {l1 l2 : List Action} {a b : Action}
    (ha : a ∉ l2) (hb : b ∉ l1) : precedes (l1 ++ l2) a b := by
  intro i j hi hj
  have hil : (i : Nat) < l1.length := by
    by_contra hge
    push_neg at hge
    have h2 : (i : Nat) - l1.length < l2.length := by
      have hlen := List.length_append l1 l2
      have := i.2
      omega
    have heq : (l1 ++ l2).get i = l2.get ⟨(i : Nat) - l1.length, h2⟩ :=
      List.get_append_right l1 l2 hge
    have : a ∈ l2 := by
      rw [heq] at hi
      rw [← hi]
      exact l2.get_mem _ _
    exact absurd this ha
  have hjl : l1.length ≤ (j : Nat) := by
    by_contra hlt
    push_neg at hlt
    have heq : (l1 ++ l2).get j = l1.get ⟨(j : Nat), hlt⟩ :=
      List.get_append (j : Nat) hlt
    have : b ∈ l1 := by
      rw [heq] at hj
      rw [← hj]
      exact l1.get_mem _ _
    exact absurd this hb
  omega

theorem precedes_append_right {l1 l2 : List Action} {a b : Action}
    (h : precedes l2 a b) (hb : b ∉ l1) : precedes (l1 ++ l2) a b := by
  intro i j hi hj
  have hjl : l1.length ≤ (j : Nat) := by
    by_contra hlt
    push_neg at hlt
    have heq : (l1 ++ l2).get j = l1.get ⟨(j : Nat), hlt⟩ :=
      List.get_append (j : Nat) hlt
    have : b ∈ l1 := by
      rw [heq] at hj
      rw [← hj]
      exact l1.get_mem _ _
    exact absurd this hb
  by_cases hil : (i : Nat) < l1.length
  · omega
  · push_neg at hil
    have hi2 : (i : Nat) - l1.length < l2.length := by
      have hlen := List.length_append l1 l2
      have := i.2
      omega
    have hj2 : (j : Nat) - l1.length < l2.length := by
      have hlen := List.length_append l1 l2
      have := j.2
      omega
    have heqi : (l1 ++ l2).get i = l2.get ⟨(i : Nat) - l1.length, hi2⟩ :=
      List.get_append_right l1 l2 hil
    have heqj : (l1 ++ l2).get j = l2.get ⟨(j : Nat) - l1.length, hj2⟩ :=
      List.get_append_right l1 l2 hjl
    have := h ⟨(i : Nat) - l1.length, hi2⟩ ⟨(j : Nat) - l1.length, hj2⟩
      (by rw [← heqi]; exact hi) (by rw [← heqj]; exact hj)
    simp only at this
    omega

theorem precedes_append_both {l1 l2 : List Action} {a b : Action}
    (h : precedes l1 a b) (ha : a ∉ l2) (hb : b ∉ l2) :
    precedes (l1 ++ l2) a b := by
  intro i j hi hj
  have hil : (i : Nat) < l1.length := by
    by_contra hge
    push_neg at hge
    have h2 : (i : Nat) - l1.length < l2.length := by
      have hlen := List.length_append l1 l2
      have := i.2
      omega
    have heq : (l1 ++ l2).get i = l2.get ⟨(i : Nat) - l1.length, h2⟩ :=
      List.get_append_right l1 l2 hge
    have : a ∈ l2 := by
      rw [heq] at hi
      rw [← hi]
      exact l2.get_mem _ _
    exact absurd this ha
  have hjl : (j : Nat) < l1.length := by
    by_contra hge
    push_neg at hge
    have h2 : (j : Nat) - l1.length < l2.length := by
      have hlen := List.length_append l1 l2
      have := j.2
      omega
    have heq : (l1 ++ l2).get j = l2.get ⟨(j : Nat) - l1.length, h2⟩ :=
      List.get_append_right l1 l2 hge
    have : b ∈ l2 := by
      rw [heq] at hj
      rw [← hj]
      exact l2.get_mem _ _
    exact absurd this hb
  have heqi : (l1 ++ l2).get i = l1.get ⟨(i : Nat), hil⟩ :=
    List.get_append (i : Nat) hil
  have heqj : (l1 ++ l2).get j = l1.get ⟨(j : Nat), hjl⟩ :=
    List.get_append (j : Nat) hjl
  have := h ⟨(i : Nat), hil⟩ ⟨(j : Nat), hjl⟩
    (by rw [← heqi]; exact hi) (by rw [← heqj]; exact hj)
  simpa using this

theorem jobSteps_eq (job : JobM) : jobSteps job = stageSteps job ++ lateSteps := rfl

theorem reachesStage_iff (job : JobM) (env : RunEnv) :
    reachesStage job env = true ↔ ∀ st ∈ stageSteps job, st.ok env = true := by
  simp [reachesStage, stageSteps, Bool.and_eq_true, List.forall_mem_cons]
  tauto

theorem lateStepsOk_iff (env : RunEnv) :
    lateStepsOk env = true ↔ ∀ st ∈ lateSteps, st.ok env = true := by
  simp [lateStepsOk, lateSteps, Bool.and_eq_true, List.forall_mem_cons]
  tauto

theorem lateSteps_discard : ∀ st ∈ lateSteps, Action.discardCache ∈ st.defers := by
  simp [lateSteps, defersProv, defersContainer, defersTask]

theorem lateSteps_no_commit :
    ∀ st ∈ lateSteps, st.action ≠ Action.commitCache ∧
      Action.commitCache ∉ st.defers := by
  simp [lateSteps, defersProv, defersContainer, defersTask]

/-- C1 amended: in a run where cache provisioning succeeded, the cache
commit step runs iff the remaining steps through the task wait (home
files, container create, task create, start, wait) also all succeed —
regardless of the task's exit status; when one of those later steps
fails, the commit is skipped and the per-run snapshot is deleted by the
deferred cleanup instead. -/
theorem commit_requires_wait (job : JobM) (env : RunEnv)
    (hstage : reachesStage job env = true) :
    (lateStepsOk env = true → Action.commitCache ∈ (runJobInnerM job env).1) ∧
    (lateStepsOk env = false →
      Action.commitCache ∉ (runJobInnerM job env).1 ∧
      Action.discardCache ∈ (runJobInnerM job env).1) := by
  have hstage2 := (reachesStage_iff job env).mp hstage
  constructor
  · intro hlate
    have hall : ∀ st ∈ jobSteps job, st.ok env = true := by
      rw [jobSteps_eq]
      intro st hst
      rcases List.mem_append.mp hst with h | h
      · exact hstage2 st h
      · exact (lateStepsOk_iff env).mp hlate st h
    have hrs := runSteps_all_ok hall
    simp [runJobInnerM, hrs]
  · intro hlate
    have hex : ∃ st ∈ lateSteps, st.ok env = false := by
      by_contra hno
      push_neg at hno
      have hallok : ∀ st ∈ lateSteps, st.ok env = true := by
        intro st hs
        rcases hb : st.ok env with _ | _
        · exact absurd hb (hno st hs)
        · rfl
      simp [(lateStepsOk_iff env).mpr hallok] at hlate
    have hrs := runSteps_append env (stageSteps job) lateSteps hstage2
    obtain ⟨hdisc, hfalse⟩ := runSteps_fail_mem lateSteps_discard hex
    have h2 : (runSteps env (jobSteps job)).2 = false := by
      rw [jobSteps_eq, hrs]
      exact hfalse
    have hinner : runJobInnerM job env = runSteps env (jobSteps job) := by
      simp [runJobInnerM, h2]
    rw [hinner, jobSteps_eq, hrs]
    constructor
    · intro hmem
      rcases List.mem_append.mp hmem with h | h
      · simp [stageSteps] at h
      · exact runSteps_not_mem lateSteps_no_commit h
    · simp only [List.mem_append]
      right
      exact hdisc

/-- C1 counterexample: with provisioning succeeded and container
creation failing, the run performs no cache commit — the snapshot is
discarded — although the claim says every failure after STAGE still
commits. -/
theorem commit_skipped_on_container_failure :
    Action.provisionCache ∈
      (runJobInnerM jobPlain { envAllOk with containerOk := false }).1 ∧
    Action.commitCache ∉
      (runJobInnerM jobPlain { envAllOk with containerOk := false }).1 ∧
    Action.discardCache ∈
      (runJobInnerM jobPlain { envAllOk with containerOk := false }).1 := by
  decide

/-- Witness for C1 at an environment whose task exits non-zero: the
commit still runs. -/
theorem commit_requires_wait_witness :
    reachesStage jobPlain { envAllOk with exitCode := 3 } = true ∧
    ((lateStepsOk { envAllOk with exitCode := 3 } = true →
        Action.commitCache ∈
          (runJobInnerM jobPlain { envAllOk with exitCode := 3 }).1) ∧
     (lateStepsOk { envAllOk with exitCode := 3 } = false →
        Action.commitCache ∉
          (runJobInnerM jobPlain { envAllOk with exitCode := 3 }).1 ∧
        Action.discardCache ∈
          (runJobInnerM jobPlain { envAllOk with exitCode := 3 }).1)) :=
  ⟨by decide, commit_requires_wait jobPlain _ (by decide)⟩

theorem jobSteps_no_finalPost (job : JobM) (s : Bool) :
    ∀ st ∈ jobSteps job, st.action ≠ Action.finalPost s ∧
      Action.finalPost s ∉ st.defers := by
  simp [jobSteps, defersHome, defersProv, defersContainer, defersTask]

theorem jobSteps_no_pendingPost (job : JobM) :
    ∀ st ∈ jobSteps job, st.action ≠ Action.pendingPost ∧
      Action.pendingPost ∉ st.defers := by
  simp [jobSteps, defersHome, defersProv, defersContainer, defersTask]

theorem jobSteps_no_commentPost (job : JobM) :
    ∀ st ∈ jobSteps job, st.action ≠ Action.commentPost ∧
      Action.commentPost ∉ st.defers := by
  simp [jobSteps, defersHome, defersProv, defersContainer, defersTask]

theorem inner_shape_success (job : JobM) (env : RunEnv)
    (h : (runSteps env (jobSteps job)).2 = true) :
    (runJobInnerM job env).1 =
      (runSteps env (jobSteps job)).1 ++
        (Action.commitCache ::
          ((if job.isPR && env.commentFile then [Action.commentPost] else []) ++
           ([Action.killTask, Action.deleteTask, Action.deleteContainer] ++
            ((if env.renameOk then [] else [Action.discardCache]) ++
             [Action.deleteJobDir])))) := by
  simp [runJobInnerM, h, List.append_assoc]

theorem inner_shape_failure (job : JobM) (env : RunEnv)
    (h : (runSteps env (jobSteps job)).2 = false) :
    runJobInnerM job env = runSteps env (jobSteps job) := by
  simp [runJobInnerM, h]

theorem finalPost_not_in_inner (job : JobM) (env : RunEnv) (s : Bool) :
    Action.finalPost s ∉ (runJobInnerM job env).1 := by
  have h1 : Action.finalPost s ∉ (runSteps env (jobSteps job)).1 :=
    runSteps_not_mem (jobSteps_no_finalPost job s)
  rcases hb : (runSteps env (jobSteps job)).2 with _ | _
  · rw [inner_shape_failure job env hb]; exact h1
  · rw [inner_shape_success job env hb]
    intro hmem
    rcases List.mem_append.mp hmem with h | h
    · exact h1 h
    · rcases List.mem_cons.mp h with h | h
      · cases h
      rcases List.mem_append.mp h with h | h
      · split_ifs at h <;> simp at h
      rcases List.mem_append.mp h with h | h
      · simp at h
      rcases List.mem_append.mp h with h | h
      · split_ifs at h <;> simp at h
      · simp at h

theorem pendingPost_not_in_inner (job : JobM) (env : RunEnv) :
    Action.pendingPost ∉ (runJobInnerM job env).1 := by
  have h1 : Action.pendingPost ∉ (runSteps env (jobSteps job)).1 :=
    runSteps_not_mem (jobSteps_no_pendingPost job)
  rcases hb : (runSteps env (jobSteps job)).2 with _ | _
  · rw [inner_shape_failure job env hb]; exact h1
  · rw [inner_shape_success job env hb]
    intro hmem
    rcases List.mem_append.mp hmem with h | h
    · exact h1 h
    · rcases List.mem_cons.mp h with h | h
      · cases h
      rcases List.mem_append.mp h with h | h
      · split_ifs at h <;> simp at h
      rcases List.mem_append.mp h with h | h
      · simp at h
      rcases List.mem_append.mp h with h | h
      · split_ifs at h <;> simp at h
      · simp at h

theorem commit_before_comment_inner (job : JobM) (env : RunEnv) :
    precedes (runJobInnerM job env).1 Action.commitCache Action.commentPost := by
  have hcmt : Action.commentPost ∉ (runSteps env (jobSteps job)).1 :=
    runSteps_not_mem (jobSteps_no_commentPost job)
  rcases hb : (runSteps env (jobSteps job)).2 with _ | _
  · rw [inner_shape_failure job env hb]
    exact precedes_of_not_mem_right hcmt
  · rw [inner_shape_success job env hb]
    apply precedes_append_right _ hcmt
    rcases h1 : (job.isPR && env.commentFile) with _ | _ <;>
      rcases h2 : env.renameOk with _ | _ <;>
        (try simp only [h1]) <;> (try simp only [h2]) <;> decide

/-- C7: in every run trace, the pending status post strictly precedes
the final status post, and the cache commit strictly precedes both the
final status post and the PR comment post. -/
theorem job_run_ordering (job : JobM) (env : RunEnv) (s : Bool) :
    precedes (runJobM job env) Action.pendingPost (Action.finalPost s) ∧
    precedes (runJobM job env) Action.commitCache (Action.finalPost s) ∧
    precedes (runJobM job env) Action.commitCache Action.commentPost := by
  rcases hl : env.logsOk with _ | _
  · have hshape : runJobM job env = [Action.createLogs] := by
      simp [runJobM, hl]
    rw [hshape]
    exact ⟨precedes_of_not_mem_right (by simp),
      precedes_of_not_mem_right (by simp),
      precedes_of_not_mem_right (by simp)⟩
  · rcases hg : env.ghOk with _ | _
    · have hshape : runJobM job env = [Action.createLogs, Action.ghClient] := by
        simp [runJobM, hl, hg]
      rw [hshape]
      exact ⟨precedes_of_not_mem_right (by simp),
        precedes_of_not_mem_right (by simp),
        precedes_of_not_mem_right (by simp)⟩
    · have hshape : runJobM job env =
          Action.createLogs :: Action.ghClient :: Action.pendingPost ::
            ((runJobInnerM job env).1 ++
              [Action.finalPost (runJobInnerM job env).2]) := by
        simp [runJobM, hl, hg]
      rw [hshape]
      refine ⟨?_, ?_, ?_⟩
      · apply precedes_cons_of (by simp)
        apply precedes_cons_of (by simp)
        apply precedes_cons_of (by simp)
        exact precedes_append (by simp) (finalPost_not_in_inner job env s)
      · apply precedes_cons_of (by simp)
        apply precedes_cons_of (by simp)
        apply precedes_cons_of (by simp)
        exact precedes_append (by simp) (finalPost_not_in_inner job env s)
      · apply precedes_cons_of (by simp)
        apply precedes_cons_of (by simp)
        apply precedes_cons_of (by simp)
        exact precedes_append_both (commit_before_comment_inner job env)
          (by simp) (by simp)

theorem renderDirective_eq (args : List Tok) (conds : List CondTok) :
    renderDirective args conds =
      renderSep (args.map Tok.render ++ conds.map CondTok.render) := rfl

theorem renderSep_nil : renderSep [] = [] := rfl

theorem renderSep_single (x : List Char) : renderSep [x] = x := by
  simp [renderSep]

theorem renderSep_cons₂ (x y : List Char) (rest : List (List Char)) :
    renderSep (x :: y :: rest) = x ++ ' ' :: renderSep (y :: rest) := by
  simp [renderSep, List.intersperse_cons₂]

theorem takeWhile_eq_nil_of_head_false {α : Type} {p : α → Bool} {l : List α}
    (h : ∀ c, l.head? = some c → p c = false) : l.takeWhile p = [] := by
  cases l with
  | nil => rfl
  | cons a l => rw [List.takeWhile_cons, if_neg (by simp [h a rfl])]

theorem bareOk_not_ws {c : Char} (h : bareOk c = true) : isWsChar c = false := by
  simp only [bareOk, Bool.not_eq_true', Bool.or_eq_false_iff,
    decide_eq_false_iff_not] at h
  simp only [isWsChar, Bool.or_eq_false_iff, decide_eq_false_iff_not]
  tauto

theorem bareOk_ne_quote {c : Char} (h : bareOk c = true) : c ≠ '"' := by
  intro hc
  rw [hc] at h
  exact absurd h (by decide)

theorem scanQuotedCore_quote (rest : List Char) :
    scanQuotedCore ('"' :: rest) = some ([], rest) := by
  rw [scanQuotedCore.eq_def]
  simp

theorem scanQuotedCore_esc (x : Char) (rest : List Char) (hx : x ≠ '\n') :
    scanQuotedCore ('\\' :: x :: rest) =
      match scanQuotedCore rest with
      | some (a, r) => some ('\\' :: x :: a, r)
      | none => none := by
  rw [scanQuotedCore.eq_def]
  simp [hx]

theorem scanQuotedCore_plain (c : Char) (rest : List Char)
    (hq : c ≠ '"') (hb : c ≠ '\\') :
    scanQuotedCore (c :: rest) =
      match scanQuotedCore rest with
      | some (a, r) => some (c :: a, r)
      | none => none := by
  rw [scanQuotedCore.eq_def]
  simp [hq, hb]

theorem scanQuotedCore_escaped (s : List Char) (rest : List Char) :
    scanQuotedCore ((s.map escChar).flatten ++ '"' :: rest) =
      some ((s.map escChar).flatten, rest) := by
  induction s with
  | nil => simp [scanQuotedCore_quote]
  | cons c s ih =>
      by_cases h1 : c = '\\'
      · subst h1; simp [escChar, scanQuotedCore_esc, ih]
      by_cases h2 : c = '"'
      · subst h2; simp [escChar, h1, scanQuotedCore_esc, ih]
      by_cases h3 : c = '\n'
      · subst h3; simp [escChar, h1, h2, scanQuotedCore_esc, ih]
      by_cases h4 : c = '\r'
      · subst h4; simp [escChar, h1, h2, h3, scanQuotedCore_esc, ih]
      by_cases h5 : c = '\t'
      · subst h5; simp [escChar, h1, h2, h3, h4, scanQuotedCore_esc, ih]
      · simp [escChar, h1, h2, h3, h4, h5, scanQuotedCore_plain, ih]

theorem unstringCore_cons_plain {c : Char} {rest : List Char}
    (hc : c ≠ '\\') (hne : rest ≠ []) :
    unstringCore (c :: rest) = (unstringCore rest).map (fun out => c :: out) := by
  rcases rest with _ | ⟨c2, rest2⟩
  · exact absurd rfl hne
  · rw [unstringCore.eq_def]
    simp only [hc, if_false]
    rcases unstringCore (c2 :: rest2) with _ | out <;> simp

theorem unstringCore_esc (x : Char) (rest : List Char) :
    unstringCore ('\\' :: x :: rest) =
      match escDecode x, unstringCore rest with
      | some d, some out => some (d :: out)
      | _, _ => none := by
  rw [unstringCore.eq_def]
  simp

theorem unstringCore_escaped (s : List Char) :
    unstringCore ((s.map escChar).flatten ++ ['"']) = some s := by
  induction s with
  | nil => rw [unstringCore.eq_def]; rfl
  | cons c s ih =>
      by_cases h1 : c = '\\'
      · subst h1; simp [escChar, unstringCore_esc, escDecode, ih]
      by_cases h2 : c = '"'
      · subst h2; simp [escChar, h1, unstringCore_esc, escDecode, ih]
      by_cases h3 : c = '\n'
      · subst h3; simp [escChar, h1, h2, unstringCore_esc, escDecode, ih]
      by_cases h4 : c = '\r'
      · subst h4; simp [escChar, h1, h2, h3, unstringCore_esc, escDecode, ih]
      by_cases h5 : c = '\t'
      · subst h5; simp [escChar, h1, h2, h3, h4, unstringCore_esc, escDecode, ih]
      · have hne : (s.map escChar).flatten ++ ['"'] ≠ [] := by simp
        simp only [escChar, h1, h2, h3, h4, h5, if_false, List.map_cons,
          List.flatten_cons, List.singleton_append, List.cons_append, List.nil_append,
          List.append_assoc]
        rw [unstringCore_cons_plain h1 hne, ih]
        rfl

theorem scanItem_bare (s rest : List Char) (hs : s ≠ [])
    (hall : ∀ c ∈ s, bareOk c = true)
    (hrest : ∀ c, rest.head? = some c → bareOk c = false) :
    scanItem (s ++ rest) = (s, rest) := by
  have hq : ¬((s ++ rest).head? = some '"') := by
    rcases s with _ | ⟨c0, stail⟩
    · exact absurd rfl hs
    · simp only [List.cons_append, List.head?_cons, Option.some.injEq]
      exact bareOk_ne_quote (hall c0 (by simp))
  have ht : (s ++ rest).takeWhile bareOk = s := by
    rw [takeWhile_append_of_all s rest hall, takeWhile_eq_nil_of_head_false hrest,
      List.append_nil]
  have hd : (s ++ rest).dropWhile bareOk = rest := by
    rw [dropWhile_append_of_all s rest hall, dropWhile_of_head_false hrest]
  simp only [scanItem, if_neg hq, ht, hd]

theorem scanItem_quoted (content rest : List Char) :
    scanItem ((Tok.quoted content).render ++ rest) =
      ((Tok.quoted content).render, rest) := by
  simp only [Tok.render, List.cons_append, List.append_assoc, List.singleton_append]
  simp only [scanItem, List.head?_cons, if_pos rfl, List.tail_cons]
  rw [scanQuotedCore_escaped]
  simp

theorem scanItem_token (tok : Tok) (rest : List Char) (h : tok.wf)
    (hb : ∀ c, rest.head? = some c → bareOk c = false) :
    scanItem (tok.render ++ rest) = (tok.render, rest) := by
  cases tok with
  | bare s => exact scanItem_bare s rest h.1 h.2 hb
  | quoted content => exact scanItem_quoted content rest

theorem unstring_bare (s : List Char) (hs : s ≠ [])
    (hall : ∀ c ∈ s, bareOk c = true) : unstring s = some s := by
  rcases s with _ | ⟨c0, stail⟩
  · exact absurd rfl hs
  · simp only [unstring, List.head?_cons, Option.some.injEq]
    rw [if_neg (bareOk_ne_quote (hall c0 (by simp)))]

theorem unstring_token (tok : Tok) (h : tok.wf) :
    unstring tok.render = some tok.value := by
  cases tok with
  | bare s => exact unstring_bare s h.1 h.2
  | quoted content =>
      simp only [Tok.render, Tok.value, unstring, List.head?_cons, if_pos rfl,
        List.tail_cons]
      exact unstringCore_escaped content

theorem scanOp_render (o : COp) (tail : List Char) :
    scanOp (o.render ++ tail) = some (o.render, tail) := by
  cases o <;> simp [COp.render, scanOp]

theorem scanOp_space (rest : List Char)
    (h : rest = [] ∨ ∃ t, rest = ' ' :: t) : scanOp rest = none := by
  rcases h with rfl | ⟨t, rfl⟩
  · rfl
  · simp [scanOp]

theorem op_head_not_bare (o : COp) (t : List Char) :
    ∀ c, (o.render ++ t).head? = some c → bareOk c = false := by
  cases o <;> (intro c hc; simp [COp.render] at hc; subst hc; decide)

theorem scanCondition_render (ct : CondTok) (rest : List Char) (h : ct.wf)
    (hrest : ∀ c, rest.head? = some c → bareOk c = false) :
    scanCondition (ct.render ++ rest) =
      some (ct.key.render, ct.op.render, ct.value.render, rest) := by
  have h1 : scanItem (ct.key.render ++ (ct.op.render ++ (ct.value.render ++ rest))) =
      (ct.key.render, ct.op.render ++ (ct.value.render ++ rest)) :=
    scanItem_token ct.key _ h.1 (op_head_not_bare ct.op _)
  have h2 : scanItem (ct.value.render ++ rest) = (ct.value.render, rest) :=
    scanItem_token ct.value rest h.2 hrest
  have h3 := scanOp_render ct.op (ct.value.render ++ rest)
  simp only [CondTok.render, List.append_assoc]
  simp only [scanCondition, h1, h3, h2]

theorem space_boundary_bare (rest : List Char)
    (hsp : rest = [] ∨ ∃ t, rest = ' ' :: t) :
    ∀ c, rest.head? = some c → bareOk c = false := by
  rcases hsp with rfl | ⟨t, rfl⟩
  · intro c hc; simp at hc
  · intro c hc
    simp only [List.head?_cons, Option.some.injEq] at hc
    subst hc; decide

theorem scanCondition_arg_none (tok : Tok) (rest : List Char) (h : tok.wf)
    (hsp : rest = [] ∨ ∃ t, rest = ' ' :: t) :
    scanCondition (tok.render ++ rest) = none := by
  have h1 := scanItem_token tok rest h (space_boundary_bare rest hsp)
  simp only [scanCondition, h1, scanOp_space rest hsp]

theorem render_head (tok : Tok) (h : tok.wf) :
    ∃ c0 t0, tok.render = c0 :: t0 ∧ isWsChar c0 = false := by
  cases tok with
  | bare s =>
      rcases s with _ | ⟨c0, st⟩
      · exact absurd rfl h.1
      · exact ⟨c0, st, rfl, bareOk_not_ws (h.2 c0 (by simp))⟩
  | quoted s => exact ⟨'"', _, rfl, by decide⟩

theorem cond_render_head (ct : CondTok) (h : ct.wf) :
    ∃ c0 t0, ct.render = c0 :: t0 ∧ isWsChar c0 = false := by
  obtain ⟨c0, t0, he, hw⟩ := render_head ct.key h.1
  exact ⟨c0, t0 ++ (ct.op.render ++ ct.value.render),
    by simp [CondTok.render, he], hw⟩

theorem render_length_pos (tok : Tok) (h : tok.wf) : 1 ≤ tok.render.length := by
  obtain ⟨c0, t0, he, -⟩ := render_head tok h
  simp [he]

theorem cond_render_length_pos (ct : CondTok) (h : ct.wf) :
    1 ≤ ct.render.length := by
  obtain ⟨c0, t0, he, -⟩ := cond_render_head ct h
  simp [he]

theorem renderSep_cons_head (p : List Char) (ps : List (List Char)) :
    ∃ t, renderSep (p :: ps) = p ++ t := by
  cases ps with
  | nil => exact ⟨[], by rw [renderSep_single, List.append_nil]⟩
  | cons q qs => exact ⟨' ' :: renderSep (q :: qs), renderSep_cons₂ p q qs⟩

theorem renderSep_length_ge (pieces : List (List Char))
    (h : ∀ p ∈ pieces, 1 ≤ p.length) :
    2 * pieces.length ≤ (renderSep pieces).length + 1 := by
  induction pieces with
  | nil => simp [renderSep_nil]
  | cons p ps ih =>
      cases ps with
      | nil =>
          have h1 := h p (by simp)
          rw [renderSep_single]
          simp only [List.length_cons, List.length_nil]
          omega
      | cons q qs =>
          rw [renderSep_cons₂]
          have h1 := h p (by simp)
          have h2 := ih (fun x hx => h x (by simp [hx]))
          simp only [List.length_append, List.length_cons, List.length_nil] at *
          omega

theorem parseLoop_space (fuel : Nat) (s : List Char)
    (hh : ∀ c, s.head? = some c → isWsChar c = false)
    (args : List (List Char)) (acc : List DirectiveCondition) :
    parseLoop (fuel + 1) (' ' :: s) args acc = parseLoop fuel s args acc := by
  have hdrop : List.dropWhile isWsChar s = s := dropWhile_of_head_false hh
  have hws : isWsChar ' ' = true := by decide
  simp [parseLoop, parseStep, List.dropWhile, hws, hdrop]

theorem parseStep_cond (ct : CondTok) (tail : List Char) (h : ct.wf)
    (hsp : tail = [] ∨ ∃ t, tail = ' ' :: t)
    (rec : List Char → List (List Char) → List DirectiveCondition →
      Option (Except (List Char) Directive))
    (args : List (List Char)) (acc : List DirectiveCondition) :
    parseStep rec (ct.render ++ tail) args acc =
      rec tail args (acc ++ [ct.toCondition]) := by
  obtain ⟨c0, t0, he, hw⟩ := cond_render_head ct h
  have hcons : ct.render ++ tail = c0 :: (t0 ++ tail) := by rw [he]; rfl
  rw [hcons]
  simp only [parseStep, hw, Bool.false_eq_true, if_false]
  rw [← hcons, scanCondition_render ct tail h (space_boundary_bare tail hsp)]
  simp only [unstring_token ct.key h.1, unstring_token ct.value h.2]
  simp [CondTok.toCondition]

theorem parseStep_arg (tok : Tok) (tail : List Char) (h : tok.wf)
    (hsp : tail = [] ∨ ∃ t, tail = ' ' :: t)
    (rec : List Char → List (List Char) → List DirectiveCondition →
      Option (Except (List Char) Directive))
    (args : List (List Char)) :
    parseStep rec (tok.render ++ tail) args [] =
      rec tail (args ++ [tok.value]) [] := by
  obtain ⟨c0, t0, he, hw⟩ := render_head tok h
  have hcons : tok.render ++ tail = c0 :: (t0 ++ tail) := by rw [he]; rfl
  rw [hcons]
  simp only [parseStep, hw, Bool.false_eq_true, if_false]
  rw [← hcons, scanCondition_arg_none tok tail h hsp,
    scanItem_token tok tail h (space_boundary_bare tail hsp)]
  simp only [List.isEmpty_nil, unstring_token tok h]
  simp

theorem parseLoop_conds (cts : List CondTok) :
    ∀ (fuel : Nat) (args : List (List Char)) (acc : List DirectiveCondition),
      (∀ ct ∈ cts, ct.wf) → 1 ≤ fuel → 2 * cts.length ≤ fuel →
      parseLoop fuel (renderSep (cts.map CondTok.render)) args acc =
        some (.ok ⟨args, acc ++ cts.map CondTok.toCondition⟩) := by
  induction cts with
  | nil =>
      intro fuel args acc _ h1 _
      obtain ⟨f, rfl⟩ : ∃ f, fuel = f + 1 := ⟨fuel - 1, by omega⟩
      simp [renderSep_nil, parseLoop, parseStep]
  | cons ct cts ih =>
      intro fuel args acc hwf h1 h2
      obtain ⟨f, rfl⟩ : ∃ f, fuel = f + 1 := ⟨fuel - 1, by omega⟩
      have hctwf : ct.wf := hwf ct (by simp)
      cases cts with
      | nil =>
          simp only [List.map_cons, List.map_nil, renderSep_single]
          rw [show ct.render = ct.render ++ [] from (List.append_nil _).symm]
          simp only [parseLoop]
          rw [parseStep_cond ct [] hctwf (Or.inl rfl)]
          simp only [List.length_cons, List.length_nil] at h2
          obtain ⟨g, rfl⟩ : ∃ g, f = g + 1 := ⟨f - 1, by omega⟩
          simp [parseLoop, parseStep]
      | cons ct2 cts2 =>
          simp only [List.map_cons, renderSep_cons₂]
          simp only [parseLoop]
          rw [show ct.render ++ ' ' :: renderSep (CondTok.render ct2 :: List.map CondTok.render cts2) =
            ct.render ++ (' ' :: renderSep (CondTok.render ct2 :: List.map CondTok.render cts2)) from rfl]
          rw [parseStep_cond ct _ hctwf (Or.inr ⟨_, rfl⟩)]
          simp only [List.length_cons] at h2
          obtain ⟨g, rfl⟩ : ∃ g, f = g + 1 := ⟨f - 1, by omega⟩
          rw [parseLoop_space]
          · have := ih g args (acc ++ [ct.toCondition])
              (fun x hx => hwf x (by simp [hx])) (by omega) (by simp; omega)
            simp only [List.map_cons] at this
            rw [this]
            simp
          · intro c hc
            obtain ⟨c0, t0, he, hws⟩ := cond_render_head ct2 (hwf ct2 (by simp))
            obtain ⟨t, ht⟩ := renderSep_cons_head (CondTok.render ct2) (List.map CondTok.render cts2)
            rw [ht, he] at hc
            simp only [List.cons_append, List.head?_cons, Option.some.injEq] at hc
            subst hc
            exact hws

theorem pieces_head_nonws (toks : List Tok) (cts : List CondTok)
    (hwt : ∀ t ∈ toks, t.wf) (hwc : ∀ ct ∈ cts, ct.wf)
    (p2 : List Char) (ps : List (List Char))
    (h0 : toks.map Tok.render ++ cts.map CondTok.render = p2 :: ps) :
    ∃ c0 t0, p2 = c0 :: t0 ∧ isWsChar c0 = false := by
  cases toks with
  | nil =>
      cases cts with
      | nil => simp at h0
      | cons ct cts =>
          simp only [List.map_nil, List.nil_append, List.map_cons,
            List.cons.injEq] at h0
          obtain ⟨c0, t0, he, hws⟩ := cond_render_head ct (hwc ct (by simp))
          exact ⟨c0, t0, h0.1 ▸ he, hws⟩
  | cons tok toks =>
      simp only [List.map_cons, List.cons_append, List.cons.injEq] at h0
      obtain ⟨c0, t0, he, hws⟩ := render_head tok (hwt tok (by simp))
      exact ⟨c0, t0, h0.1 ▸ he, hws⟩

theorem parseLoop_args (toks : List Tok) :
    ∀ (cts : List CondTok) (fuel : Nat) (args : List (List Char)),
      (∀ t ∈ toks, t.wf) → (∀ ct ∈ cts, ct.wf) →
      1 ≤ fuel → 2 * (toks.length + cts.length) ≤ fuel →
      parseLoop fuel (renderSep (toks.map Tok.render ++ cts.map CondTok.render))
          args [] =
        some (.ok ⟨args ++ toks.map Tok.value, cts.map CondTok.toCondition⟩) := by
  induction toks with
  | nil =>
      intro cts fuel args _ hwc h1 h2
      have := parseLoop_conds cts fuel args [] hwc h1 (by simpa using h2)
      simpa using this
  | cons tok toks ih =>
      intro cts fuel args hwt hwc h1 h2
      obtain ⟨f, rfl⟩ : ∃ f, fuel = f + 1 := ⟨fuel - 1, by omega⟩
      have htokwf : tok.wf := hwt tok (by simp)
      rcases h0 : (List.map Tok.render toks ++ List.map CondTok.render cts) with _ | ⟨p2, ps⟩
      · simp only [List.append_eq_nil, List.map_eq_nil_iff] at h0
        obtain ⟨rfl, rfl⟩ := h0
        simp only [List.map_cons, List.map_nil, List.nil_append, List.append_nil,
          renderSep_single]
        rw [show tok.render = tok.render ++ [] from (List.append_nil _).symm]
        simp only [parseLoop]
        rw [parseStep_arg tok [] htokwf (Or.inl rfl)]
        simp only [List.length_cons, List.length_nil] at h2
        obtain ⟨g, rfl⟩ : ∃ g, f = g + 1 := ⟨f - 1, by omega⟩
        simp [parseLoop, parseStep]
      · simp only [List.map_cons, List.cons_append, h0, renderSep_cons₂]
        simp only [parseLoop]
        rw [show tok.render ++ ' ' :: renderSep (p2 :: ps) =
          tok.render ++ (' ' :: renderSep (p2 :: ps)) from rfl]
        rw [parseStep_arg tok _ htokwf (Or.inr ⟨_, rfl⟩)]
        simp only [List.length_cons] at h2
        obtain ⟨g, rfl⟩ : ∃ g, f = g + 1 := ⟨f - 1, by omega⟩
        have hlen : toks.length + cts.length = ps.length + 1 := by
          have := congrArg List.length h0
          simpa using this
        rw [parseLoop_space]
        · have := ih cts g (args ++ [tok.value])
            (fun x hx => hwt x (by simp [hx])) hwc (by omega) (by omega)
          rw [h0] at this
          rw [this]
          simp
        · intro c hc
          obtain ⟨c0, t0, he, hws⟩ :=
            pieces_head_nonws toks cts (fun x hx => hwt x (by simp [hx])) hwc p2 ps h0
          obtain ⟨t, ht⟩ := renderSep_cons_head p2 ps
          rw [ht, he] at hc
          simp only [List.cons_append, List.head?_cons, Option.some.injEq] at hc
          subst hc
          exact hws

theorem renderDirective_fuel (toks : List Tok) (cts : List CondTok)
    (hwt : ∀ t ∈ toks, t.wf) (hwc : ∀ ct ∈ cts, ct.wf) :
    2 * (toks.length + cts.length) ≤ (renderDirective toks cts).length + 1 := by
  rw [renderDirective_eq]
  have hall : ∀ p ∈ toks.map Tok.render ++ cts.map CondTok.render, 1 ≤ p.length := by
    intro p hp
    rcases List.mem_append.mp hp with hp | hp
    · obtain ⟨t, ht, rfl⟩ := List.mem_map.mp hp
      exact render_length_pos t (hwt t ht)
    · obtain ⟨ct, hct, rfl⟩ := List.mem_map.mp hp
      exact cond_render_length_pos ct (hwc ct hct)
  have := renderSep_length_ge _ hall
  simp only [List.length_append, List.length_map] at this
  omega

/-- C8: round-trip of the directive grammar — every directive rendered
from well-formed positional-argument tokens followed by well-formed
key-op-value conditions, single-space separated, is parsed back by
`parseDirective` into exactly those arguments and conditions, in
order. -/
theorem parse_round_trip (toks : List Tok) (cts : List CondTok)
    (hwt : ∀ t ∈ toks, t.wf) (hwc : ∀ ct ∈ cts, ct.wf) :
    parseDirective (renderDirective toks cts) =
      some (.ok ⟨toks.map Tok.value, cts.map CondTok.toCondition⟩) := by
  have hfuel := renderDirective_fuel toks cts hwt hwc
  have := parseLoop_args toks cts ((renderDirective toks cts).length + 1) []
    hwt hwc (by omega) hfuel
  simpa [parseDirective, renderDirective_eq] using this

/-- Witness for C8: the directive `build "a b" target=linux` round-trips. -/
theorem parse_round_trip_witness :
    parseDirective (renderDirective
        [Tok.bare "build".data, Tok.quoted "a b".data]
        [⟨Tok.bare "target".data, COp.eq, Tok.bare "linux".data⟩]) =
      some (.ok ⟨["build".data, "a b".data],
        [⟨"target".data, ['='], "linux".data⟩]⟩) :=
  parse_round_trip _ _ (by decide)
    (by intro ct hct; simp only [List.mem_singleton] at hct; subst hct
        exact ⟨by decide, by decide⟩)

end Bender
